import Mathlib

/-!
Verification of the spf-flattener repository: a shallow embedding of the
SPF flattening, CIDR aggregation, record packing, normalization,
reconciliation-delete and retry/backoff code, with theorems settling the
specification claims.

Go strings are modelled as lists of characters (`Str`); Go `uint32`
arithmetic is `Nat` arithmetic with explicit `% 2^32`; fallible code
returns `Option`/`Except`; loops whose termination is part of what is
being verified take an explicit fuel argument, with `none` denoting
non-termination (lemmas justify that `none` is fuel-independent where it
matters).  Go map iteration feeds either a sort or a set-like use in all
modelled code, so maps are modelled as association lists / deduplicated
lists, with a comment at each use.
-/

/-- Go strings as lists of characters. -/
abbrev Str := List Char

/-- The Unicode White_Space set used by Go `unicode.IsSpace` (relevant to
`strings.Fields`). -/
def isGoSpace (c : Char) : Bool :=
  c = ' ' || c = '\t' || c = '\n' || c = '\x0b' || c = '\x0c' || c = '\r' ||
  c.val = 0x85 || c.val = 0xa0 || c.val = 0x1680 ||
  (0x2000 ≤ c.val && c.val ≤ 0x200a) ||
  c.val = 0x2028 || c.val = 0x2029 || c.val = 0x202f || c.val = 0x205f || c.val = 0x3000

/-- Accumulator pass of Go `strings.Fields`: split on runs of whitespace. -/
def fieldsAux : Str → Str → List Str
  | [], acc => if acc = [] then [] else [acc]
  | c :: rest, acc =>
    if isGoSpace c then
      (if acc = [] then fieldsAux rest [] else acc :: fieldsAux rest [])
    else fieldsAux rest (acc ++ [c])

/-- Go `strings.Fields`. -/
def fields (s : Str) : List Str := fieldsAux s []

/-- Go `strings.Join(ts, " ")`. -/
def joinSpace : List Str → Str
  | [] => []
  | [t] => t
  | t :: ts => t ++ ' ' :: joinSpace ts

/-- Go `strings.HasSuffix` / suffix test (decidable, on char lists). -/
def isSuffix (suf s : Str) : Bool := List.isSuffixOf suf s

/-- Go `strings.TrimSuffix`. -/
def trimSuffix (s suf : Str) : Str :=
  if isSuffix suf s then s.take (s.length - suf.length) else s

/-- Go `strings.HasPrefix`. -/
def startsWith (pre s : Str) : Bool := List.isPrefixOf pre s

/-- Go `strings.Contains`. -/
def containsSubstr : Str → Str → Bool
  | [], sub => List.isPrefixOf sub []
  | c :: rest, sub => List.isPrefixOf sub (c :: rest) || containsSubstr rest sub

/-- One fuelled pass of Go `strings.ReplaceAll` (leftmost, non-overlapping);
fuel `s.length` always suffices for non-empty `old`. -/
def replaceAllAux : Nat → Str → Str → Str → Str
  | 0, s, _, _ => s
  | _ + 1, [], _, _ => []
  | f + 1, c :: rest, old, new =>
    if List.isPrefixOf old (c :: rest) then
      new ++ replaceAllAux f ((c :: rest).drop old.length) old new
    else c :: replaceAllAux f rest old new

/-- Go `strings.ReplaceAll` (the modelled calls always pass non-empty `old`). -/
def replaceAll (s old new : Str) : Str := replaceAllAux s.length s old new

/-- Go `strconv.Itoa` digit character. -/
def digitChar (n : Nat) : Char := Char.ofNat (48 + n)

/-- Fuelled decimal rendering; fuel `n + 1` always suffices. -/
def itoaAux : Nat → Nat → Str
  | 0, _ => []
  | f + 1, n => if n < 10 then [digitChar n] else itoaAux f (n / 10) ++ [digitChar (n % 10)]

/-- Go `strconv.Itoa` for natural numbers (the modelled calls are on
non-negative loop counters). -/
def itoa (n : Nat) : Str := itoaAux (n + 1) n

/-! ### Section: porkbun client — secret redaction (client.go). -/

/-- `redactSensitive` from client.go: two successive `strings.ReplaceAll`
substitutions.  Note the second is applied to the output of the first. -/
def redactSensitive (input : Str) : Str :=
  let input := replaceAll input "apikey".data "[REDACTED]".data
  replaceAll input "secretapikey".data "[REDACTED]".data

/-- The parsed provider response of `Client.RetrieveRecords` (client.go):
only the fields the modelled error path inspects. -/
structure RetrieveRecordsResponse where
  status : Str
deriving DecidableEq

/-- The API-level status check at the end of `Client.RetrieveRecords`
(client.go lines 173-176): a status other than "SUCCESS" produces
`fmt.Errorf("Porkbun API error retrieving records: %s", status)`.
The raw status string is interpolated into the error; `redactSensitive`
is not applied anywhere on this path (it is defined in client.go but
never called). -/
def retrieveRecordsCheck (resp : RetrieveRecordsResponse) : Except Str RetrieveRecordsResponse :=
  if resp.status = "SUCCESS".data then .ok resp
  else .error ("Porkbun API error retrieving records: ".data ++ resp.status)

/-! ### Section: backup manager — retry and backoff (client.go part 2). -/

/-- `isRateLimitError` from client.go: substring tests on the error text. -/
def isRateLimitError (e : Str) : Bool :=
  containsSubstr e "429".data || containsSubstr e "503".data ||
  containsSubstr e "rate limit".data || containsSubstr e "too many requests".data ||
  containsSubstr e "quota exceeded".data

/-- `isTemporaryError` from client.go: substring tests on the error text. -/
def isTemporaryError (e : Str) : Bool :=
  containsSubstr e "timeout".data || containsSubstr e "connection refused".data ||
  containsSubstr e "network is unreachable".data || containsSubstr e "temporary".data ||
  containsSubstr e "temporary failure".data

/-- Retry-relevant configuration of `BackupManager`.  Durations are exact
rationals; the Go code computes the backoff in `float64`, which is exact
for the default parameters (dyadic base, multiplier 2.0) on the modelled
range, and the claims under test concern the exact schedule. -/
structure BackupManagerCfg where
  retryCount : Nat
  retryDelay : ℚ
  maxRetryDelay : ℚ
  backoffMultiplier : ℚ
  jitterEnabled : Bool

/-- `BackupManager.calculateBackoffDelay` (client.go lines 819-842).
`j` is the value of `rand.Float64()` for this call, in `[0, 1)`. -/
def calculateBackoffDelay (bm : BackupManagerCfg) (attempt : Nat) (j : ℚ) : ℚ :=
  if attempt = 0 then 0
  else
    let delay := bm.retryDelay * bm.backoffMultiplier ^ (attempt - 1)
    let delay := if delay > bm.maxRetryDelay then bm.maxRetryDelay else delay
    if bm.jitterEnabled then delay + j * delay * (1 / 10) else delay

/-- Result of a `withRetry` run: the backoff sleeps performed (in order)
and whether the wrapped call eventually succeeded. -/
structure RetryTrace where
  sleeps : List ℚ
  succeeded : Bool
deriving DecidableEq

/-- The loop body of `BackupManager.withRetry` (client.go lines 844-888),
from loop index `attempt` with `remaining = retryCount - attempt`
iterations left.  `res k = none` means the `k`-th execution of `fn`
succeeded, `res k = some e` that it failed with error text `e`; `jit k`
is the jitter sample for the sleep computed at loop index `k`.  Context
cancellation and the rate limiter are not modelled (the claims under
test concern the backoff schedule and the retry decision). -/
def withRetryAux (bm : BackupManagerCfg) (res : Nat → Option Str) (jit : Nat → ℚ) :
    Nat → Nat → RetryTrace
  | _, 0 => ⟨[], false⟩
  | attempt, remaining + 1 =>
    match res attempt with
    | none => ⟨[], true⟩
    | some e =>
      if isRateLimitError e || isTemporaryError e then
        if attempt < bm.retryCount - 1 then
          let d := calculateBackoffDelay bm attempt (jit attempt)
          let t := withRetryAux bm res jit (attempt + 1) remaining
          ⟨d :: t.sleeps, t.succeeded⟩
        else ⟨[], false⟩
      else ⟨[], false⟩

/-- `BackupManager.withRetry`: run the loop from attempt 0. -/
def withRetry (bm : BackupManagerCfg) (res : Nat → Option Str) (jit : Nat → ℚ) : RetryTrace :=
  withRetryAux bm res jit 0 bm.retryCount

/-- The default configuration installed by `NewBackupManager` when the
caller passes zero values (client.go lines 743-760). -/
def defaultBackupCfg : BackupManagerCfg :=
  { retryCount := 5, retryDelay := 1, maxRetryDelay := 30
    backoffMultiplier := 2, jitterEnabled := false }

/-! ### Section: record packer — SplitAndChainSPF (split.go). -/

/-- The greedy packing loop of `SplitAndChainSPF` (split.go lines 32-46):
`p0` is `parts[0]` (the `v=spf1` token), `nParts = len(parts)`, `i` the
index into `parts[1:]`, `cur` the current builder contents.  Returns the
flushed records and the final builder contents.  The length estimate uses
the placeholder chain `" include:spfX.<domain> ~all"` exactly as the
source does (the `i < len(parts)-1` test is on the full parts list, so
the `" ~all"` branch is never taken — modelled as written). -/
def packAux (p0 domain : Str) (nParts : Nat) : List Str → Nat → Str → (List Str × Str)
  | [], _, cur => ([], cur)
  | part :: rest, i, cur =>
    let chaining := if i < nParts - 1 then (" include:spfX.".data ++ domain ++ " ~all".data)
                    else " ~all".data
    if 255 < cur.length + part.length + 1 + chaining.length then
      let r := packAux p0 domain nParts rest (i + 1) (p0 ++ ' ' :: part)
      (cur :: r.1, r.2)
    else packAux p0 domain nParts rest (i + 1) (cur ++ ' ' :: part)

/-- The chaining tail appended to segment `i` of `n` (split.go lines 53-56). -/
def chainFor (domain : Str) (i n : Nat) : Str :=
  if i < n - 1 then " include:spf".data ++ itoa (i + 1) ++ '.' :: domain ++ " ~all".data
  else " ~all".data

/-- The output-assembly loop of `SplitAndChainSPF` (split.go lines 51-64):
truncates each segment to `255 - len(chaining)` when needed and appends
the chaining tail.  `maxLen` is a Go `int`; when it is negative the Go
slice `record[:maxLen]` panics, modelled as `none`. -/
def emitRecords (domain : Str) (n : Nat) : List Str → Nat → Option (List (Str × Str))
  | [], _ => some []
  | rec :: rest, i =>
    let chaining := chainFor domain i n
    let maxLen : Int := 255 - chaining.length
    let trunc : Option Str :=
      if (rec.length : Int) > maxLen then
        (if maxLen < 0 then none else some (rec.take maxLen.toNat))
      else some rec
    match trunc with
    | none => none
    | some r =>
      (emitRecords domain n rest (i + 1)).map
        (fun t => ("spf".data ++ itoa i ++ '.' :: domain, r ++ chaining) :: t)

/-- `SplitAndChainSPF` (split.go lines 15-68).  The Go function returns a
map from record name to content; the model returns the association list
of its entries (all keys are distinct: `spfN.<domain>` names carry
distinct indices and the apex name `domain` is shorter than any of them).
`none` models the two panics of the source: `parts[0]` on an empty parts
list and `record[:maxLen]` with negative `maxLen`. -/
def splitAndChainSPF (spfRecord domain : Str) : Option (List (Str × Str)) :=
  if spfRecord.length ≤ 255 then some [(domain, spfRecord)]
  else
    match fields (trimSuffix (trimSuffix spfRecord " ~all".data) " -all".data) with
    | [] => none
    | p0 :: restParts =>
      match emitRecords domain
          ((packAux p0 domain (restParts.length + 1) restParts 0 p0).1 ++
            [(packAux p0 domain (restParts.length + 1) restParts 0 p0).2]).length
          ((packAux p0 domain (restParts.length + 1) restParts 0 p0).1 ++
            [(packAux p0 domain (restParts.length + 1) restParts 0 p0).2]) 0 with
      | none => none
      | some entries =>
        some (entries ++ [(domain, "v=spf1 include:spf0.".data ++ domain ++ " ~all".data)])

/-! ### Section: SPF normalizer (NormalizeSPF, part_007). -/

/-- `isSPFMechanism` from the normalizer source: prefix tests. -/
def isSPFMechanism (p : Str) : Bool :=
  startsWith "include:".data p || startsWith "a".data p || startsWith "mx".data p ||
  startsWith "ip4:".data p || startsWith "ip6:".data p || startsWith "ptr".data p ||
  startsWith "exists:".data p || startsWith "redirect=".data p || startsWith "exp=".data p

/-- The classification loop of `NormalizeSPF` over `parts[1:]`: the three
mutable variables (`allMechanism`, `mechanisms`, `normalizedParts` tail of
unknown tokens) threaded as accumulators.  A token ending in "all"
overwrites `allM` (the last one wins), a recognized mechanism is queued
for sorting, anything else is kept in place, unsorted. -/
def classifyTokens : List Str → Str → List Str → List Str → (Str × List Str × List Str)
  | [], allM, mechs, unknowns => (allM, mechs, unknowns)
  | p :: rest, allM, mechs, unknowns =>
    if isSuffix "all".data p then classifyTokens rest p mechs unknowns
    else if isSPFMechanism p then classifyTokens rest allM (mechs ++ [p]) unknowns
    else classifyTokens rest allM mechs (unknowns ++ [p])

/-- `NormalizeSPF` from the normalizer source.  Go's `sort.Strings` is
byte-lexicographic; the model sorts by the codepoint order on char lists
(identical on ASCII, and any fixed total order yields the same structure).
The empty Go string `""` (no `all` token seen) is the empty char list. -/
def normalizeSPF (s : Str) : Except Str Str :=
  if startsWith "v=spf1".data s = false then
    .error "invalid SPF record: must start with v=spf1".data
  else
    match fields s with
    | [] => .error "empty SPF record".data
    | p0 :: rest =>
      .ok (joinSpace (p0 :: ((classifyTokens rest [] [] []).2.2 ++
        List.insertionSort (· ≤ ·) (classifyTokens rest [] [] []).2.1 ++
        (if (classifyTokens rest [] [] []).1 = [] then []
         else [(classifyTokens rest [] [] []).1]))))

-- fields/join infrastructure

/-! ### Section: flatten command — reconciliation delete phase (part_010). -/

/-- The inner staleness loop of the flatten command's delete phase
(part_010, `for i := 0; ; i++` inside the stale-record scan): `i` is the
loop counter, `name` the existing record name under test, `chainedKeys`
the key set of `chainedRecords`.  The Go loop has no bound; `fuel`
counts iterations and `none` models non-termination.  `some false` is
the `isStale = false` exit, `some true` the `break` that leaves
`isStale = true`. -/
def staleCheck (chainedKeys : List Str) (dName name : Str) : Nat → Nat → Option Bool
  | 0, _ => none
  | fuel + 1, i =>
    if ¬ chainedKeys.contains ("spf".data ++ itoa i ++ '.' :: dName) ∧
        name ≠ "spf".data ++ itoa i ++ '.' :: dName then
      staleCheck chainedKeys dName name fuel (i + 1)
    else if name = "spf".data ++ itoa i ++ '.' :: dName then some false
    else if ¬ chainedKeys.contains ("spf".data ++ itoa i ++ '.' :: dName) then some true
    else staleCheck chainedKeys dName name fuel (i + 1)

/-- The stale-record scan of the flatten command (part_010 lines 302-338):
walk the existing SPF TXT record names, skip `spf-unflat.<domain>` when
the `spf-unflat` option is set, and delete a record iff its staleness
loop exits with `isStale = true`.  Returns the names deleted, `none`
when the staleness loop never terminates for some record (the Go
program hangs there). -/
def staleDeleteLoop (spfUnflat : Bool) (dName : Str) (chainedKeys : List Str) (fuel : Nat) :
    List Str → Option (List Str)
  | [] => some []
  | name :: rest =>
    if (startsWith "spf".data name && containsSubstr name dName) = true then
      if spfUnflat = true ∧ name = "spf-unflat.".data ++ dName then
        staleDeleteLoop spfUnflat dName chainedKeys fuel rest
      else
        match staleCheck chainedKeys dName name fuel 0 with
        | none => none
        | some true =>
          (staleDeleteLoop spfUnflat dName chainedKeys fuel rest).map (name :: ·)
        | some false => staleDeleteLoop spfUnflat dName chainedKeys fuel rest
    else staleDeleteLoop spfUnflat dName chainedKeys fuel rest

/-- All record deletions the flatten command can issue for one domain:
the stale-record scan plus the delete-then-recreate branch of the
create/update loop.  The latter deletes only existing records whose
trimmed name equals a `chainedRecords` key (the `existingID` lookup
matches on the key); `mismatchDel` abstracts its hostname-mismatch
condition as an arbitrary predicate. -/
def deletePhase (spfUnflat : Bool) (dName : Str) (existingNames chainedKeys : List Str)
    (mismatchDel : Str → Bool) (fuel : Nat) : Option (List Str) :=
  (staleDeleteLoop spfUnflat dName chainedKeys fuel existingNames).map
    (· ++ chainedKeys.filter mismatchDel)

/-! ### Section: SPF resolver — flattening and lookup counting
(core_flatten.go).  A DNS environment is a pure total view of the
resolver: `txt` never fails (the per-run TXT cache of the Go code is the
identity over a pure environment and is omitted), while `ip`/`mx` return
`none` for a failed lookup, which `processMechanism` skips with
`continue` exactly as the source does. -/

/-- A resolved IP address as the Go code consumes it: the `To4() != nil`
test result and the `ip.String()` rendering. -/
structure IPAddr where
  v4 : Bool
  s : Str
deriving DecidableEq

/-- A pure DNS environment. -/
structure DNSEnv where
  txt : Str → List Str
  ip : Str → Option (List IPAddr)
  mx : Str → Option (List Str)

/-- The SPF resolution errors of core_flatten.go. -/
inductive SPFError where
  | depthExceeded (d : Str)
  | recursionDetected (d : Str)
  | noRecord (d : Str)
deriving DecidableEq

/-- Insertion into the `flattenedIPs` set (a Go map used as a set; the
model keeps first-insertion order, which is irrelevant after the final
sort). -/
def insertIP (ips : List Str) (x : Str) : List Str :=
  if x ∈ ips then ips else ips ++ [x]

/-- The mechanism string added for one resolved address. -/
def tagIP (a : IPAddr) : Str :=
  (if a.v4 then "ip4:".data else "ip6:".data) ++ a.s

/-- The `a`/`mx` target: `currentDomain`, or the part after the colon
(`strings.Split(part, ":")[1]`). -/
def lookupTarget (dom part : Str) : Str :=
  if containsSubstr part ":".data then (part.splitOn ':').getD 1 [] else dom

/-- `flattener.processMechanism` (core_flatten.go lines 450-532).  `fuel`
is `11 - depth` (the Go entry check `depth > 10` fires exactly at
`fuel = 0`); `stack` is the recursion stack (inserted on entry, removed
by `defer` on exit, hence passed down, not returned); `ips` the
`flattenedIPs` accumulator.  Branch order and prefix tests are the
source's: `include:`, then `ip4:`/`ip6:`, then any token starting with
`a` (which includes a bare `all`), then any token starting with `mx`;
`ptr` and everything else fall through.  Failed `ip`/`mx` lookups are
skipped (`continue`). -/
def procMech (env : DNSEnv) : Nat → List Str → List Str → Str → Str →
    Except SPFError (List Str)
  | 0, _, _, dom, _ => .error (.depthExceeded dom)
  | fuel + 1, stack, ips, dom, mech =>
    if dom ∈ stack then .error (.recursionDetected dom)
    else
      (fields mech).foldlM (fun acc part =>
        if startsWith "include:".data part then
          (env.txt (part.drop 8)).foldlM (fun acc2 rec =>
            if startsWith "v=spf1".data rec then
              procMech env fuel (dom :: stack) acc2 (part.drop 8) rec
            else pure acc2) acc
        else if startsWith "ip4:".data part || startsWith "ip6:".data part then
          pure (insertIP acc part)
        else if startsWith "a".data part then
          match env.ip (lookupTarget dom part) with
          | none => pure acc
          | some addrs => pure (addrs.foldl (fun a2 ad => insertIP a2 (tagIP ad)) acc)
        else if startsWith "mx".data part then
          match env.mx (lookupTarget dom part) with
          | none => pure acc
          | some hosts => pure (hosts.foldl (fun a2 host =>
              match env.ip host with
              | none => a2
              | some addrs => addrs.foldl (fun a3 ad => insertIP a3 (tagIP ad)) a2) acc)
        else pure acc) ips

/-- `FlattenSPF` (core_flatten.go lines 559-612).  `aggFn` abstracts the
`AggregateCIDRs` call on the mechanism-string level (the aggregator
itself is studied separately on its parsed form); with
`aggregate = false` it is not consulted.  In a pure environment the only
errors are the recursion errors, so the source's distinction between
`recursionErr` and wrapped processing errors collapses. -/
def flattenSPF (aggFn : List Str → List Str) (env : DNSEnv) (domain : Str)
    (aggregate : Bool) : Except SPFError (Str × Str) :=
  match (env.txt domain).find? (fun r => startsWith "v=spf1".data r) with
  | none => .error (.noRecord domain)
  | some originalSPF =>
    match procMech env 11 [] [] domain originalSPF with
    | .error e => .error e
    | .ok ips =>
      if ips = [] then .ok (originalSPF, originalSPF)
      else
        .ok (originalSPF, "v=spf1 ".data ++
          joinSpace (List.insertionSort (· ≤ ·) (if aggregate then aggFn ips else ips)) ++
          " ~all".data)

/-- `lookupCounter.countMechanisms` (core_flatten.go lines 392-448),
counting the `visited` increments it performs: one per `include:` target
(before the cached TXT fetch, so duplicates and cache hits count), one
per token starting with `a`, one per token starting with `mx`.  `fuel`
is `11 - depth` as in `procMech`. -/
def countMech (env : DNSEnv) : Nat → Str → Str → Except SPFError Nat
  | 0, dom, _ => .error (.depthExceeded dom)
  | fuel + 1, _, mech =>
    (fields mech).foldlM (fun acc part =>
      if startsWith "include:".data part then
        (env.txt (part.drop 8)).foldlM (fun acc2 rec =>
          if startsWith "v=spf1".data rec then
            (countMech env fuel (part.drop 8) rec).map (acc2 + ·)
          else pure acc2) (acc + 1)
      else if startsWith "a".data part then pure (acc + 1)
      else if startsWith "mx".data part then pure (acc + 1)
      else pure acc) 0

/-- `CountDNSLookups` (core_flatten.go lines 345-384): the initial apex
TXT fetch counts 1; with no `v=spf1` record the count is exactly 1;
otherwise the `visited` map is incremented per mechanism and its values
are summed, which equals 1 plus the number of increments performed by
`countMechanisms`. -/
def countDNSLookups (env : DNSEnv) (domain : Str) : Except SPFError Nat :=
  match (env.txt domain).find? (fun r => startsWith "v=spf1".data r) with
  | none => .ok 1
  | some spfRecord => (countMech env 11 domain spfRecord).map (1 + ·)

/-- `FlattenSPFWithThreshold` (core_flatten.go lines 631-672). -/
def flattenSPFWithThreshold (aggFn : List Str → List Str) (env : DNSEnv) (domain : Str)
    (aggregate forceFlatten : Bool) : Except SPFError (Str × Str × Nat × Bool) :=
  match countDNSLookups env domain with
  | .error e => .error e
  | .ok lookupCount =>
    match (env.txt domain).find? (fun r => startsWith "v=spf1".data r) with
    | none => .error (.noRecord domain)
    | some originalSPF =>
      if 10 < lookupCount ∨ forceFlatten = true then
        match flattenSPF aggFn env domain aggregate with
        | .error e => .error e
        | .ok (_, flattened) => .ok (originalSPF, flattened, lookupCount, true)
      else .ok (originalSPF, originalSPF, lookupCount, false)

/-- A one-record environment used by concrete instantiations. -/
def exEnv : DNSEnv :=
  ⟨fun d => if d = "ex.com".data then ["v=spf1 ip4:1.2.3.4 ~all".data] else [],
   fun _ => none, fun _ => none⟩

/-- Modelled from the claim's wording (C5): one lookup for every
`include:`, bare `a`, `a:<host>`, bare `mx`, `mx:<host>` token; zero for
everything else (`ip4:`, `ip6:`, the all qualifier in any form,
`redirect=`, `exp=`). -/
def claimTokenCost (part : Str) : Nat :=
  if startsWith "include:".data part then 1
  else if part = "a".data ∨ startsWith "a:".data part then 1
  else if part = "mx".data ∨ startsWith "mx:".data part then 1
  else 0

/-- Modelled from the claim's wording (C5): the total lookup count of the
expansion tree under `claimTokenCost`. -/
def claimTreeCost (env : DNSEnv) : Nat → Str → Nat
  | 0, _ => 0
  | fuel + 1, mech =>
    ((fields mech).map (fun part =>
      claimTokenCost part +
      (if startsWith "include:".data part then
        ((env.txt (part.drop 8)).map (fun rec =>
          if startsWith "v=spf1".data rec then claimTreeCost env fuel rec else 0)).sum
       else 0))).sum

/-- The per-token lookup cost the code actually implements
(`countMechanisms` branch structure): prefix tests, so any token starting
with `a` (including a bare `all`) or with `mx` counts one lookup. -/
def codeTokenCost (part : Str) : Nat :=
  if startsWith "include:".data part then 1
  else if startsWith "a".data part then 1
  else if startsWith "mx".data part then 1
  else 0

/-- The expansion-tree lookup total under the code's classification. -/
def codeTreeCost (env : DNSEnv) : Nat → Str → Nat
  | 0, _ => 0
  | fuel + 1, mech =>
    ((fields mech).map (fun part =>
      codeTokenCost part +
      (if startsWith "include:".data part then
        ((env.txt (part.drop 8)).map (fun rec =>
          if startsWith "v=spf1".data rec then codeTreeCost env fuel rec else 0)).sum
       else 0))).sum

/-- An environment whose apex record carries a bare `all` token. -/
def allEnv : DNSEnv :=
  ⟨fun d => if d = "ex.com".data then ["v=spf1 all".data] else [],
   fun _ => none, fun _ => none⟩

/-- An environment exercising every token class of the counting claim. -/
def richEnv : DNSEnv :=
  ⟨fun d =>
    if d = "ex.com".data then
      ["v=spf1 ip4:1.2.3.4 include:inc.com a mx:m.com redirect=r.com exp=e.com ~all".data]
    else if d = "inc.com".data then ["v=spf1 ip4:5.6.7.8 -all".data]
    else [],
   fun _ => none, fun _ => none⟩

/-- Modelled from the spec's notion of a cycle (C6): an include-expansion
path from `dom` (with the current path `path`) revisits a domain already
on the path, within `fuel` levels of expansion.  The traversal follows
exactly the records `processMechanism` recurses into: `include:` tokens
whose target publishes a `v=spf1` record. -/
def revisitWithin (env : DNSEnv) : Nat → List Str → Str → Str → Bool
  | 0, _, _, _ => false
  | fuel + 1, path, dom, mech =>
    decide (dom ∈ path) ||
    (fields mech).any (fun part =>
      startsWith "include:".data part &&
      (env.txt (part.drop 8)).any (fun rec =>
        startsWith "v=spf1".data rec &&
        revisitWithin env fuel (dom :: path) (part.drop 8) rec))

/-- A 12-domain include chain `a → b → … → l → a`: the revisit of `a` sits
one level beyond the depth limit. -/
def chainEnv : DNSEnv :=
  ⟨fun d =>
    if d = "a".data then ["v=spf1 include:b ~all".data]
    else if d = "b".data then ["v=spf1 include:c ~all".data]
    else if d = "c".data then ["v=spf1 include:d ~all".data]
    else if d = "d".data then ["v=spf1 include:e ~all".data]
    else if d = "e".data then ["v=spf1 include:f ~all".data]
    else if d = "f".data then ["v=spf1 include:g ~all".data]
    else if d = "g".data then ["v=spf1 include:h ~all".data]
    else if d = "h".data then ["v=spf1 include:i ~all".data]
    else if d = "i".data then ["v=spf1 include:j ~all".data]
    else if d = "j".data then ["v=spf1 include:k ~all".data]
    else if d = "k".data then ["v=spf1 include:l ~all".data]
    else if d = "l".data then ["v=spf1 include:a ~all".data]
    else [],
   fun _ => none, fun _ => none⟩

/-- The two-domain cycle of spec scenario S5. -/
def cycEnv : DNSEnv :=
  ⟨fun d =>
    if d = "x.com".data then ["v=spf1 include:y.com ~all".data]
    else if d = "y.com".data then ["v=spf1 include:x.com ~all".data]
    else [],
   fun _ => none, fun _ => none⟩

/-! ### Section: CIDR aggregator (cidr.go).  IPv4 addresses are `Nat`
values below `2^32` with Go's `uint32` arithmetic written as explicit
`% 2^32`; IPv6 addresses are `Nat` values below `2^128` (the Go code uses
`big.Int`, which is exact).  Mechanism strings are modelled in parsed
form: the string operations of cidr.go (prefix tests, `/` detection,
`Sscanf` of the emitted prefix) are injective renderings of these
constructors. -/

/-- `2^32`, the Go `uint32` modulus. -/
def u32 : Nat := 4294967296

/-- A parsed SPF IP mechanism as consumed by `AggregateCIDRsWithConfig`:
an individual IPv4/IPv6 host (`ip4:a.b.c.d`), an existing CIDR block
(`ip4:a.b.c.d/p`), or a non-IP mechanism kept verbatim. -/
inductive Mech where
  | ip4 (a : Nat)
  | ip4Cidr (b : Nat) (p : Nat)
  | ip6 (a : Nat)
  | ip6Cidr (b : Nat) (p : Nat)
  | other (s : Str)
deriving DecidableEq

/-- An emitted mechanism: `rangeToExactCIDRs` prints a bare address when
the prefix is 32 (respectively 128) and CIDR notation otherwise;
non-IP mechanisms pass through. -/
inductive OutMech where
  | v4single (a : Nat)
  | v4block (b : Nat) (p : Nat)
  | v6single (a : Nat)
  | v6block (b : Nat) (p : Nat)
  | passthrough (m : Mech)
deriving DecidableEq

/-- A CIDR emitted by one family's aggregation pipeline. -/
inductive Cidr where
  | single (addr : Nat)
  | block (base : Nat) (prefixLen : Nat)
deriving DecidableEq

/-- The doubling loop of `largestPowerOfTwoLessOrEqual` (cidr.go lines
273-284): `for power <= value { power <<= 1 }` in `uint32` arithmetic,
returning `power >> 1`.  `none` models non-termination: once `power`
wraps to 0 the condition `0 <= value` holds forever, which happens
exactly when `value ≥ 2^31`. -/
def l2leLoop (value : Nat) : Nat → Nat → Option Nat
  | 0, _ => none
  | fuel + 1, power =>
    if power ≤ value then l2leLoop value fuel ((power * 2) % u32) else some (power / 2)

/-- `largestPowerOfTwoLessOrEqual` with the loop fuel fixed at 33, which
is exact: the loop exits within 32 iterations for `value < 2^31` and
never exits otherwise (`l2leLoop_diverges`). -/
def largestPowerOfTwoLessOrEqual (value : Nat) : Option Nat :=
  if value = 0 then some 1 else l2leLoop value 33 1

/-- The alignment loop of `rangeToExactCIDRs`:
`for start%maxSize != 0 { maxSize /= 2 }`.  Fuel 33 (respectively 130
for IPv6) always suffices since the size is a power of two and halving
reaches 1, where `start % 1 = 0`. -/
def alignLoop : Nat → Nat → Nat → Nat
  | 0, _, size => size
  | fuel + 1, start, size =>
    if start % size ≠ 0 then alignLoop fuel start (size / 2) else size

/-- `int(math.Log2(float64(n)))` for the power-of-two sizes the code
computes it on (exact there), and the IPv6 halving-count loop, which
computes the same function. -/
def ilog2 : Nat → Nat → Nat
  | 0, _ => 0
  | fuel + 1, n => if n ≤ 1 then 0 else ilog2 fuel (n / 2) + 1

/-- `rangeToExactCIDRs` (cidr.go lines 319-344) in `uint32` arithmetic:
`end - start + 1` and `start += maxSize` wrap modulo `2^32`.  `fuel`
bounds loop iterations; `none` models non-termination (fuel exhaustion
or a diverging inner power search). -/
def rangeToExactCIDRs : Nat → Nat → Nat → Option (List Cidr)
  | 0, _, _ => none
  | fuel + 1, start, e =>
    if start ≤ e then
      (largestPowerOfTwoLessOrEqual ((e - start + 1) % u32)).bind (fun maxSize0 =>
        (rangeToExactCIDRs fuel ((start + alignLoop 33 start maxSize0) % u32) e).map
          (fun rest =>
            (if 32 - ilog2 34 (alignLoop 33 start maxSize0) = 32 then
              Cidr.single start
            else Cidr.block start (32 - ilog2 34 (alignLoop 33 start maxSize0))) :: rest))
    else some []

/-- The run-detection walk of `mergeContiguousRanges` (cidr.go lines
289-315): extend the current run `[s, e]` while the next sorted element
equals `e + 1` (in `uint32`), emitting each finished run through
`rangeToExactCIDRs`. -/
def mergeAux (fuel : Nat) : List Nat → Nat → Nat → Option (List Cidr)
  | [], s, e => rangeToExactCIDRs fuel s e
  | x :: xs, s, e =>
    if x = (e + 1) % u32 then mergeAux fuel xs s x
    else
      (rangeToExactCIDRs fuel s e).bind (fun c =>
        (mergeAux fuel xs x x).map (fun r => c ++ r))

/-- `mergeContiguousRanges`. -/
def mergeContiguousRanges (fuel : Nat) : List Nat → Option (List Cidr)
  | [] => some []
  | x :: xs => mergeAux fuel xs x x

/-- `aggregateIPv4` (cidr.go lines 233-255): deduplicate (Go: map keys),
sort ascending (Go: `sort.Slice`; on a duplicate-free list any correct
sort yields the same sequence), then merge contiguous runs. -/
def aggregateIPv4 (fuel : Nat) (ips : List Nat) : Option (List Cidr) :=
  if ips = [] then some []
  else mergeContiguousRanges fuel (List.insertionSort (· ≤ ·) ips.dedup)

/-- `expandCIDRToIPv4s` (cidr.go lines 348-373): refuse networks larger
than 65536 hosts (note Go's `uint32(1) << 32 = 0` when the prefix is 0);
`net.ParseCIDR` masks the base address to the network boundary. -/
def expandCIDRv4 (base p : Nat) : List Nat :=
  if 65536 < (2 ^ (32 - p)) % u32 then []
  else (List.range ((2 ^ (32 - p)) % u32)).map
    (fun i => (base / 2 ^ (32 - p) * 2 ^ (32 - p) + i) % u32)

/-- Aggregation configuration (cidr.go `AggregationConfig`).  The Go
`PreserveIndividual` list of strings is matched against `ip.String()`;
its entries that parse as IPv4 respectively IPv6 addresses are carried
here in parsed form (the rendering is injective, other entries never
match). -/
structure AggregationConfig where
  v4MaxPfx : Int
  v6MaxPfx : Int
  preserve4 : List Nat
  preserve6 : List Nat

/-- The default configuration installed when the caller passes `nil`
(cidr.go lines 51-57). -/
def defaultAggConfig : AggregationConfig := ⟨24, 64, [], []⟩

/-- What an aggregated IPv4 CIDR contributes to `individualIPs` in the
filter loop of `aggregateIPv4WithConfig`: a bare single joins the list
as-is, a block below the configured minimum prefix is re-expanded via
`expandCIDRToIPs`, and a kept block contributes nothing there. -/
def cfgStep4 (cfg : AggregationConfig) (c : Cidr) : List Cidr :=
  match c with
  | Cidr.single a => [Cidr.single a]
  | Cidr.block b p =>
    if cfg.v4MaxPfx ≤ (p : Int) then [] else (expandCIDRv4 b p).map Cidr.single

/-- What an aggregated IPv4 CIDR contributes to `filteredCIDRs`: only a
block whose prefix is at least `IPv4MaxPrefix` survives. -/
def keepStep4 (cfg : AggregationConfig) (c : Cidr) : Option Cidr :=
  match c with
  | Cidr.block b p => if cfg.v4MaxPfx ≤ (p : Int) then some (Cidr.block b p) else none
  | Cidr.single _ => none

/-- `aggregateIPv4WithConfig` (cidr.go lines 408-465): split out preserved
addresses, aggregate the rest, then keep emitted CIDR blocks whose
prefix is at least `IPv4MaxPrefix` and re-expand the others into
individual addresses via `expandCIDRToIPs`; bare singles join the
individual list.  Output order is `filteredCIDRs ++ individualIPs`,
where `individualIPs` lists preserved addresses first (input order) and
then the filter loop's contributions (aggregated order). -/
def aggregateIPv4WithConfig (fuel : Nat) (ips : List Nat) (cfg : AggregationConfig) :
    Option (List Cidr) :=
  if ips = [] then some []
  else
    (aggregateIPv4 fuel (ips.filter (fun a => decide (a ∉ cfg.preserve4)))).map
      (fun aggregated =>
        aggregated.filterMap (keepStep4 cfg) ++
          ((ips.filter (fun a => decide (a ∈ cfg.preserve4))).map Cidr.single ++
           aggregated.foldl (fun acc c => acc ++ cfgStep4 cfg c) []))

/-- The doubling search of `ipv6RangeToExactCIDRs` (cidr.go lines
601-604): `for blockSize*2 <= maxSize { blockSize *= 2 }` over exact
`big.Int` arithmetic.  Fuel 130 suffices for any `maxSize ≤ 2^128`. -/
def v6PowLoop (maxSize : Nat) : Nat → Nat → Option Nat
  | 0, _ => none
  | fuel + 1, b => if b * 2 ≤ maxSize then v6PowLoop maxSize fuel (b * 2) else some b

/-- `ipv6RangeToExactCIDRs` (cidr.go lines 590-634) over exact `Nat`
arithmetic (`big.Int` in Go, so no wrap-around); the prefix length is
128 minus the halving count of the block size. -/
def ipv6RangeToExactCIDRs : Nat → Nat → Nat → Option (List Cidr)
  | 0, _, _ => none
  | fuel + 1, start, e =>
    if start ≤ e then
      (v6PowLoop (e - start + 1) 130 1).bind (fun b0 =>
        (ipv6RangeToExactCIDRs fuel (start + alignLoop 130 start b0) e).map
          (fun rest =>
            (if 128 - ilog2 130 (alignLoop 130 start b0) = 128 then
              Cidr.single start
            else Cidr.block start (128 - ilog2 130 (alignLoop 130 start b0))) :: rest))
    else some []

/-- The run-detection walk of `mergeContiguousIPv6Ranges` (cidr.go lines
555-587): exact successor test `sortedIPs[j] == end + 1`. -/
def mergeAux6 (fuel : Nat) : List Nat → Nat → Nat → Option (List Cidr)
  | [], s, e => ipv6RangeToExactCIDRs fuel s e
  | x :: xs, s, e =>
    if x = e + 1 then mergeAux6 fuel xs s x
    else
      (ipv6RangeToExactCIDRs fuel s e).bind (fun c =>
        (mergeAux6 fuel xs x x).map (fun r => c ++ r))

/-- `mergeContiguousIPv6Ranges`. -/
def mergeContiguousIPv6Ranges (fuel : Nat) : List Nat → Option (List Cidr)
  | [] => some []
  | x :: xs => mergeAux6 fuel xs x x

/-- `aggregateIPv6` (cidr.go lines 379-404): deduplicate (map keyed by
the decimal rendering of the 128-bit value, injective), sort ascending,
merge contiguous runs. -/
def aggregateIPv6 (fuel : Nat) (ips : List Nat) : Option (List Cidr) :=
  if ips = [] then some []
  else mergeContiguousIPv6Ranges fuel (List.insertionSort (· ≤ ·) ips.dedup)

/-- `expandCIDRToIPv6s` (cidr.go lines 638-668): refuse networks wider
than /118 or with more than 1024 hosts; the base is masked by
`net.ParseCIDR`. -/
def expandCIDRv6 (base p : Nat) : List Nat :=
  if p < 118 then []
  else if 1024 < 2 ^ (128 - p) then []
  else (List.range (2 ^ (128 - p))).map
    (fun i => base / 2 ^ (128 - p) * 2 ^ (128 - p) + i)

/-- IPv6 analogue of `cfgStep4` (cidr.go lines 498-521). -/
def cfgStep6 (cfg : AggregationConfig) (c : Cidr) : List Cidr :=
  match c with
  | Cidr.single a => [Cidr.single a]
  | Cidr.block b p =>
    if cfg.v6MaxPfx ≤ (p : Int) then [] else (expandCIDRv6 b p).map Cidr.single

/-- IPv6 analogue of `keepStep4`. -/
def keepStep6 (cfg : AggregationConfig) (c : Cidr) : Option Cidr :=
  match c with
  | Cidr.block b p => if cfg.v6MaxPfx ≤ (p : Int) then some (Cidr.block b p) else none
  | Cidr.single _ => none

/-- `aggregateIPv6WithConfig` (cidr.go lines 469-526). -/
def aggregateIPv6WithConfig (fuel : Nat) (ips : List Nat) (cfg : AggregationConfig) :
    Option (List Cidr) :=
  if ips = [] then some []
  else
    (aggregateIPv6 fuel (ips.filter (fun a => decide (a ∉ cfg.preserve6)))).map
      (fun aggregated =>
        aggregated.filterMap (keepStep6 cfg) ++
          ((ips.filter (fun a => decide (a ∈ cfg.preserve6))).map Cidr.single ++
           aggregated.foldl (fun acc c => acc ++ cfgStep6 cfg c) []))

/-- `separateIPv4IndividualFromCIDR`, first component: the individual
IPv4 host mechanisms in input order (every `Mech.ip4` is a valid parsed
address by construction). -/
def separate4 (ms : List Mech) : List Nat :=
  ms.filterMap (fun m => match m with | Mech.ip4 a => some a | _ => none)

/-- `separateIPv6IndividualFromCIDR`, first component. -/
def separate6 (ms : List Mech) : List Nat :=
  ms.filterMap (fun m => match m with | Mech.ip6 a => some a | _ => none)

/-- `separateIPv4IndividualFromCIDR`, second component: existing IPv4
CIDR blocks, preserved verbatim. -/
def existing4 (ms : List Mech) : List Mech :=
  ms.filter (fun m => match m with | Mech.ip4Cidr _ _ => true | _ => false)

/-- `separateIPv6IndividualFromCIDR`, second component. -/
def existing6 (ms : List Mech) : List Mech :=
  ms.filter (fun m => match m with | Mech.ip6Cidr _ _ => true | _ => false)

/-- `extractNonIPMechanisms`: mechanisms that are neither `ip4:` nor
`ip6:` prefixed. -/
def nonIPMechs (ms : List Mech) : List Mech :=
  ms.filter (fun m => match m with | Mech.other _ => true | _ => false)

/-- Rendering of an aggregated IPv4 CIDR in the output list. -/
def toOut4 : Cidr → OutMech
  | Cidr.single a => OutMech.v4single a
  | Cidr.block b p => OutMech.v4block b p

/-- Rendering of an aggregated IPv6 CIDR in the output list. -/
def toOut6 : Cidr → OutMech
  | Cidr.single a => OutMech.v6single a
  | Cidr.block b p => OutMech.v6block b p

/-- `AggregateCIDRsWithConfig` (cidr.go lines 45-77): separate the input,
aggregate each family's individual hosts, and concatenate aggregated
IPv4, aggregated IPv6, preserved IPv4 CIDRs, preserved IPv6 CIDRs and
non-IP mechanisms, in that order. -/
def aggregateCIDRsWithConfig (fuel : Nat) (ms : List Mech) (cfg : AggregationConfig) :
    Option (List OutMech) :=
  if ms = [] then some []
  else
    (aggregateIPv4WithConfig fuel (separate4 ms) cfg).bind (fun a4 =>
      (aggregateIPv6WithConfig fuel (separate6 ms) cfg).map (fun a6 =>
        a4.map toOut4 ++ a6.map toOut6 ++
          (existing4 ms).map OutMech.passthrough ++
          (existing6 ms).map OutMech.passthrough ++
          (nonIPMechs ms).map OutMech.passthrough))

/-- An address, tagged by family: `(true, n)` is the IPv4 address `n`,
`(false, n)` the IPv6 address `n`. -/
def mechDenote : Mech → Bool × Nat → Prop
  | Mech.ip4 a, t => t = (true, a)
  | Mech.ip4Cidr b p, t =>
    t.1 = true ∧ b / 2 ^ (32 - p) * 2 ^ (32 - p) ≤ t.2 ∧
      t.2 < b / 2 ^ (32 - p) * 2 ^ (32 - p) + 2 ^ (32 - p)
  | Mech.ip6 a, t => t = (false, a)
  | Mech.ip6Cidr b p, t =>
    t.1 = false ∧ b / 2 ^ (128 - p) * 2 ^ (128 - p) ≤ t.2 ∧
      t.2 < b / 2 ^ (128 - p) * 2 ^ (128 - p) + 2 ^ (128 - p)
  | Mech.other _, _ => False

/-- The address set denoted by an output mechanism, mirroring
`expandCIDRToIPs` semantics: a CIDR denotes the interval based at its
masked network address (`net.ParseCIDR` masks the base). -/
def outDenote : OutMech → Bool × Nat → Prop
  | OutMech.v4single a, t => t = (true, a)
  | OutMech.v4block b p, t =>
    t.1 = true ∧ b / 2 ^ (32 - p) * 2 ^ (32 - p) ≤ t.2 ∧
      t.2 < b / 2 ^ (32 - p) * 2 ^ (32 - p) + 2 ^ (32 - p)
  | OutMech.v6single a, t => t = (false, a)
  | OutMech.v6block b p, t =>
    t.1 = false ∧ b / 2 ^ (128 - p) * 2 ^ (128 - p) ≤ t.2 ∧
      t.2 < b / 2 ^ (128 - p) * 2 ^ (128 - p) + 2 ^ (128 - p)
  | OutMech.passthrough m, t => mechDenote m t

/-- Membership of an IPv4 address in an aggregated CIDR, with the base
unmasked (every block the aggregator emits is aligned, so this agrees
with the masked reading; `cidrBlocksAligned` records the alignment). -/
def inCidr4 (n : Nat) : Cidr → Prop
  | Cidr.single a => n = a
  | Cidr.block b p => b ≤ n ∧ n < b + 2 ^ (32 - p)

/-- Membership of an IPv6 address in an aggregated CIDR (unmasked). -/
def inCidr6 (n : Nat) : Cidr → Prop
  | Cidr.single a => n = a
  | Cidr.block b p => b ≤ n ∧ n < b + 2 ^ (128 - p)

/-- The well-formedness facts carried for every IPv4 block the
aggregation pipeline emits, for a run-length budget `R`. -/
def goodBlock4 (R : Nat) (cs : List Cidr) : Prop :=
  ∀ b p, Cidr.block b p ∈ cs →
    p ≤ 31 ∧ b % 2 ^ (32 - p) = 0 ∧ 2 ^ (32 - p) ≤ R ∧ b + 2 ^ (32 - p) ≤ u32

/-- IPv6 analogue of `goodBlock4`. -/
def goodBlock6 (R : Nat) (cs : List Cidr) : Prop :=
  ∀ b p, Cidr.block b p ∈ cs →
    p ≤ 127 ∧ b % 2 ^ (128 - p) = 0 ∧ 2 ^ (128 - p) ≤ R ∧ b + 2 ^ (128 - p) ≤ 2 ^ 128

/-- The facts `rangeToExactCIDRs` guarantees for each emitted CIDR on a
run `[s, e]`: singles lie in the run, blocks are aligned, at most /1
wide in content (`p ≤ 31`), start at or after `s` and end within the
run. -/
def goodCidr4 (s e : Nat) : Cidr → Prop
  | Cidr.single a => s ≤ a ∧ a ≤ e
  | Cidr.block b p => p ≤ 31 ∧ b % 2 ^ (32 - p) = 0 ∧ s ≤ b ∧ b + 2 ^ (32 - p) ≤ e + 1

/-- IPv6 analogue of `goodCidr4`. -/
def goodCidr6 (s e : Nat) : Cidr → Prop
  | Cidr.single a => s ≤ a ∧ a ≤ e
  | Cidr.block b p => p ≤ 127 ∧ b % 2 ^ (128 - p) = 0 ∧ s ≤ b ∧ b + 2 ^ (128 - p) ≤ e + 1

theorem withRetryAux_sleeps_spec (bm : BackupManagerCfg) (res : Nat → Option Str) (jit : Nat → ℚ) :
    ∀ remaining attempt, ∃ n,
      (withRetryAux bm res jit attempt remaining).sleeps =
        (List.range n).map (fun j => calculateBackoffDelay bm (attempt + j) (jit (attempt + j))) ∧
      ∀ j < n, ∃ e, res (attempt + j) = some e ∧ (isRateLimitError e || isTemporaryError e) = true := by
  intro remaining
  induction remaining with
  | zero => intro attempt; exact ⟨0, by simp [withRetryAux], by omega⟩
  | succ m ih =>
    intro attempt
    cases hres : res attempt with
    | none => exact ⟨0, by simp [withRetryAux, hres], by omega⟩
    | some e =>
      by_cases hre : (isRateLimitError e || isTemporaryError e) = true
      · by_cases hlt : attempt < bm.retryCount - 1
        · obtain ⟨n', hl, hr⟩ := ih (attempt + 1)
          refine ⟨n' + 1, ?_, ?_⟩
          · simp only [withRetryAux, hres, hre, if_true, hlt]
            rw [List.range_succ_eq_map, List.map_cons, hl]
            simp only [List.map_map]
            congr 1
            apply List.map_congr_left
            intro a _
            simp only [Function.comp_apply]
            have hadd : attempt + 1 + a = attempt + (a + 1) := by omega
            rw [hadd]
          · intro j hj
            cases j with
            | zero => exact ⟨e, by simpa using hres, hre⟩
            | succ j' =>
              obtain ⟨e', he', hr'⟩ := hr j' (by omega)
              exact ⟨e', by rw [← he']; congr 1; omega, hr'⟩
        · exact ⟨0, by simp [withRetryAux, hres, hre, hlt], by omega⟩
      · exact ⟨0, by simp [withRetryAux, hres, hre], by omega⟩

theorem retry_backoff_schedule (bm : BackupManagerCfg) (res : Nat → Option Str) (jit : Nat → ℚ)
    (hbd : 0 ≤ bm.retryDelay) (hmax : 0 ≤ bm.maxRetryDelay) (hm : 0 ≤ bm.backoffMultiplier)
    (hjit : ∀ k, 0 ≤ jit k ∧ jit k < 1) :
    ((withRetry bm res jit).sleeps[0]? = none ∨ (withRetry bm res jit).sleeps[0]? = some 0) ∧
    (∀ k d, 1 ≤ k → (withRetry bm res jit).sleeps[k]? = some d →
      min (bm.retryDelay * bm.backoffMultiplier ^ (k - 1)) bm.maxRetryDelay ≤ d ∧
      d ≤ min (bm.retryDelay * bm.backoffMultiplier ^ (k - 1)) bm.maxRetryDelay * (11 / 10) ∧
      (bm.jitterEnabled = false →
        d = min (bm.retryDelay * bm.backoffMultiplier ^ (k - 1)) bm.maxRetryDelay)) ∧
    (∀ k e, res k = some e → isRateLimitError e = false → isTemporaryError e = false →
      (withRetry bm res jit).sleeps.length ≤ k) := by
  obtain ⟨n, hl, hr⟩ := withRetryAux_sleeps_spec bm res jit bm.retryCount 0
  have hget : ∀ k, (withRetry bm res jit).sleeps[k]? =
      if k < n then some (calculateBackoffDelay bm k (jit k)) else none := by
    intro k
    rw [withRetry, hl, List.getElem?_map]
    by_cases hk : k < n
    · simp [List.getElem?_range, hk]
    · simp only [hk, if_false]
      rw [List.getElem?_eq_none (by simpa using Nat.le_of_not_lt hk)]
      rfl
  refine ⟨?_, ?_, ?_⟩
  · rw [hget 0]
    by_cases h0 : 0 < n
    · simp only [h0, if_true]
      right
      simp [calculateBackoffDelay]
    · simp [h0]
  · intro k d hk1 hkd
    rw [hget k] at hkd
    by_cases hk : k < n
    case neg => simp [hk] at hkd
    simp only [hk, if_true, Option.some.injEq] at hkd
    subst hkd
    have hk0 : k ≠ 0 := by omega
    have hpow : (0:ℚ) ≤ bm.retryDelay * bm.backoffMultiplier ^ (k - 1) :=
      mul_nonneg hbd (pow_nonneg hm _)
    have hmin : (if bm.retryDelay * bm.backoffMultiplier ^ (k - 1) > bm.maxRetryDelay
          then bm.maxRetryDelay else bm.retryDelay * bm.backoffMultiplier ^ (k - 1)) =
        min (bm.retryDelay * bm.backoffMultiplier ^ (k - 1)) bm.maxRetryDelay := by
      rcases le_or_lt (bm.retryDelay * bm.backoffMultiplier ^ (k - 1)) bm.maxRetryDelay with h | h
      · rw [if_neg (not_lt.mpr h), min_eq_left h]
      · rw [if_pos h, min_eq_right h.le]
    simp only [calculateBackoffDelay, hk0, if_false, hmin]
    set c := min (bm.retryDelay * bm.backoffMultiplier ^ (k - 1)) bm.maxRetryDelay with hc
    have hcnn : 0 ≤ c := le_min hpow hmax
    obtain ⟨hj0, hj1⟩ := hjit k
    cases hj : bm.jitterEnabled with
    | false =>
      simp only [hj]
      rw [if_neg (by simp)]
      exact ⟨le_refl c, by nlinarith, fun _ => rfl⟩
    | true =>
      simp only [hj]
      rw [if_pos trivial]
      refine ⟨by nlinarith, by nlinarith [mul_nonneg (sub_nonneg.mpr hj1.le) hcnn], ?_⟩
      intro hf
      exact absurd hf (by simp)
  · intro k e hke hrl htmp
    by_contra hlen
    push_neg at hlen
    have hkn : k < n := by
      have hln : (withRetry bm res jit).sleeps.length = n := by
        rw [withRetry, hl]; simp
      omega
    obtain ⟨e2, he2, hre2⟩ := hr k hkn
    rw [Nat.zero_add, hke] at he2
    cases he2
    rw [hrl, htmp] at hre2
    simp at hre2

/-- C8: in `Client.RetrieveRecords`, a provider response whose status is not
"SUCCESS" produces an error message that interpolates the raw status field;
`redactSensitive` is never applied on this path (the function is defined in
client.go but has no caller), so for a status containing the literal
`apikey` the error returned to the caller still contains `apikey`, while
applying `redactSensitive` would have removed it. -/
theorem retrieveRecords_error_unredacted :
    retrieveRecordsCheck ⟨"ERROR: invalid apikey".data⟩ =
      .error ("Porkbun API error retrieving records: ERROR: invalid apikey".data) ∧
    containsSubstr ("Porkbun API error retrieving records: ERROR: invalid apikey".data)
      "apikey".data = true ∧
    containsSubstr (redactSensitive ("Porkbun API error retrieving records: ERROR: invalid apikey".data))
      "apikey".data = false :=
  ⟨rfl, by decide, by decide⟩

/-- C7 counterexample: with the default configuration (base delay 1s,
multiplier 2.0, cap 30s, no jitter) and a persistent rate-limit error, the
sleeps performed before the four retries are `[0, 1, 2, 4]` seconds: the
sleep before the first retry is `0`, not `base_delay × multiplier^0 = 1`
as the claim states. -/
theorem firstRetry_sleep_zero :
    (withRetry defaultBackupCfg (fun _ => some "HTTP 429".data) (fun _ => 0)).sleeps
        = [0, 1, 2, 4] ∧
    (withRetry defaultBackupCfg (fun _ => some "HTTP 429".data) (fun _ => 0)).sleeps[0]?
        = some 0 ∧
    defaultBackupCfg.retryDelay * defaultBackupCfg.backoffMultiplier ^ (1 - 1) = 1 ∧
    (0 : ℚ) ≠ 1 := by
  refine ⟨?_, ?_, by norm_num [defaultBackupCfg], by norm_num⟩
  · simp +decide [withRetry, withRetryAux, calculateBackoffDelay, defaultBackupCfg]
  · simp +decide [withRetry, withRetryAux, calculateBackoffDelay, defaultBackupCfg]

/-- C7 (amended): in `withRetry`, the sleep before the first retry is 0, and
the sleep before retry `n ≥ 2` (list index `k = n - 1 ≥ 1`) is
`base_delay × multiplier^(k-1)` capped at `max_delay`, exactly when jitter
is disabled and inflated by strictly less than 10% when enabled; a
permanent (non-rate-limit, non-transient) error at attempt `k` stops the
loop with no further sleeps. -/
theorem retry_backoff_schedule_amended (bm : BackupManagerCfg) (res : Nat → Option Str)
    (jit : Nat → ℚ)
    (hbd : 0 ≤ bm.retryDelay) (hmax : 0 ≤ bm.maxRetryDelay) (hm : 0 ≤ bm.backoffMultiplier)
    (hjit : ∀ k, 0 ≤ jit k ∧ jit k < 1) :
    ((withRetry bm res jit).sleeps[0]? = none ∨ (withRetry bm res jit).sleeps[0]? = some 0) ∧
    (∀ k d, 1 ≤ k → (withRetry bm res jit).sleeps[k]? = some d →
      min (bm.retryDelay * bm.backoffMultiplier ^ (k - 1)) bm.maxRetryDelay ≤ d ∧
      d ≤ min (bm.retryDelay * bm.backoffMultiplier ^ (k - 1)) bm.maxRetryDelay * (11 / 10) ∧
      (bm.jitterEnabled = false →
        d = min (bm.retryDelay * bm.backoffMultiplier ^ (k - 1)) bm.maxRetryDelay)) ∧
    (∀ k e, res k = some e → isRateLimitError e = false → isTemporaryError e = false →
      (withRetry bm res jit).sleeps.length ≤ k) :=
  retry_backoff_schedule bm res jit hbd hmax hm hjit

/-- C7 witness: the amended schedule theorem applied to the default
configuration with a persistent transient error and zero jitter samples. -/
theorem retry_backoff_schedule_amended_witness :
    ((0:ℚ) ≤ defaultBackupCfg.retryDelay) ∧ ((0:ℚ) ≤ defaultBackupCfg.maxRetryDelay) ∧
    ((0:ℚ) ≤ defaultBackupCfg.backoffMultiplier) ∧
    (((withRetry defaultBackupCfg (fun _ => some "timeout".data) (fun _ => 0)).sleeps[0]? = none ∨
      (withRetry defaultBackupCfg (fun _ => some "timeout".data) (fun _ => 0)).sleeps[0]? = some 0) ∧
     (∀ k d, 1 ≤ k →
       (withRetry defaultBackupCfg (fun _ => some "timeout".data) (fun _ => 0)).sleeps[k]? = some d →
       min (defaultBackupCfg.retryDelay * defaultBackupCfg.backoffMultiplier ^ (k - 1))
           defaultBackupCfg.maxRetryDelay ≤ d ∧
       d ≤ min (defaultBackupCfg.retryDelay * defaultBackupCfg.backoffMultiplier ^ (k - 1))
           defaultBackupCfg.maxRetryDelay * (11 / 10) ∧
       (defaultBackupCfg.jitterEnabled = false →
         d = min (defaultBackupCfg.retryDelay * defaultBackupCfg.backoffMultiplier ^ (k - 1))
             defaultBackupCfg.maxRetryDelay)) ∧
     (∀ k e, (fun _ => some "timeout".data : Nat → Option Str) k = some e →
       isRateLimitError e = false → isTemporaryError e = false →
       (withRetry defaultBackupCfg (fun _ => some "timeout".data) (fun _ => 0)).sleeps.length ≤ k)) :=
  ⟨by norm_num [defaultBackupCfg], by norm_num [defaultBackupCfg], by norm_num [defaultBackupCfg],
   retry_backoff_schedule_amended defaultBackupCfg (fun _ => some "timeout".data) (fun _ => 0)
     (by norm_num [defaultBackupCfg]) (by norm_num [defaultBackupCfg])
     (by norm_num [defaultBackupCfg]) (fun _ => ⟨le_refl 0, by norm_num⟩)⟩

set_option maxRecDepth 10000 in
/-- C3 counterexample: for a 231-character domain name, the apex record
emitted by `SplitAndChainSPF` is `"v=spf1 include:spf0.<domain> ~all"`,
which is 25 + 231 = 256 octets long; the claim that every emitted record
is at most 255 octets fails. -/
theorem splitAndChain_apex_over_255 :
    ((splitAndChainSPF ("v=spf1 ".data ++ List.replicate 250 'a')
        (List.replicate 231 'd')).getD []).any (fun kv => 255 < kv.2.length) = true ∧
    (splitAndChainSPF ("v=spf1 ".data ++ List.replicate 250 'a')
        (List.replicate 231 'd')).isSome = true := by
  constructor
  · decide
  · decide

theorem emitRecords_bounded (domain : Str) (n : Nat) :
    ∀ l i es, emitRecords domain n l i = some es → ∀ kv ∈ es, kv.2.length ≤ 255 := by
  intro l
  induction l with
  | nil => intro i es h kv hkv; simp [emitRecords] at h; subst h; simp at hkv
  | cons rec rest ih =>
    intro i es h kv hkv
    simp only [emitRecords] at h
    cases ht : emitRecords domain n rest (i + 1) with
    | none =>
      rw [ht] at h
      repeat split at h
      all_goals simp_all
    | some t =>
      rw [ht] at h
      by_cases htr : (rec.length : Int) > 255 - (chainFor domain i n).length
      · rw [if_pos htr] at h
        by_cases hneg : (255 - ((chainFor domain i n).length : Int)) < 0
        · rw [if_pos hneg] at h; simp at h
        · rw [if_neg hneg] at h
          simp only [Option.map_some'] at h
          cases h
          rcases List.mem_cons.mp hkv with hkv1 | hkv2
          · subst hkv1
            simp only [List.length_append, List.length_take]
            push_neg at hneg
            omega
          · exact ih (i + 1) t ht kv hkv2
      · rw [if_neg htr] at h
        simp only [Option.map_some'] at h
        cases h
        rcases List.mem_cons.mp hkv with hkv1 | hkv2
        · subst hkv1
          simp only [List.length_append]
          push_neg at htr
          omega
        · exact ih (i + 1) t ht kv hkv2

/-- C3 (amended): for every flattened SPF record and every domain name of
at most 230 octets, every TXT record emitted by `SplitAndChainSPF` (the
apex and every `spfN.<domain>` continuation) has content length at most
255 octets.  (Domains longer than 230 octets make the apex record exceed
the bound; the continuation records are within the bound whenever the
function returns at all.) -/
theorem splitAndChain_le_255 (s dm : Str) (hd : dm.length ≤ 230) :
    ∀ out, splitAndChainSPF s dm = some out → ∀ kv ∈ out, kv.2.length ≤ 255 := by
  intro out h kv hkv
  unfold splitAndChainSPF at h
  split at h
  next hlen =>
    cases h
    rcases List.mem_singleton.mp hkv with h1
    subst h1
    exact hlen
  next hlen =>
    split at h
    next => exact absurd h (by simp)
    next p0 restParts hf =>
      split at h
      next => exact absurd h (by simp)
      next entries he =>
        cases h
        rcases List.mem_append.mp hkv with h1 | h2
        · exact emitRecords_bounded dm _ _ 0 entries he kv h1
        · rcases List.mem_singleton.mp h2 with h3
          subst h3
          simp only [List.length_append, List.length_cons, List.length_nil]
          omega

/-- C3 witness: the amended bound applied to a short record and domain. -/
theorem splitAndChain_le_255_witness :
    ("example.com".data).length ≤ 230 ∧
    splitAndChainSPF "v=spf1 ip4:192.0.2.1 ~all".data "example.com".data
      = some [("example.com".data, "v=spf1 ip4:192.0.2.1 ~all".data)] ∧
    (∀ kv ∈ [(("example.com".data : Str), "v=spf1 ip4:192.0.2.1 ~all".data)],
      kv.2.length ≤ 255) :=
  ⟨by decide, by decide,
   splitAndChain_le_255 "v=spf1 ip4:192.0.2.1 ~all".data "example.com".data (by decide)
     [("example.com".data, "v=spf1 ip4:192.0.2.1 ~all".data)] (by decide)⟩

theorem fieldsAux_nonspace_chunk (t : Str) :
    ∀ r acc, (∀ c ∈ t, isGoSpace c = false) →
      fieldsAux (t ++ r) acc = fieldsAux r (acc ++ t) := by
  induction t with
  | nil => intro r acc _; simp
  | cons c t' ih =>
    intro r acc h
    have hc : isGoSpace c = false := h c (List.mem_cons_self c t')
    show fieldsAux (c :: (t' ++ r)) acc = fieldsAux r (acc ++ c :: t')
    simp only [fieldsAux]
    rw [if_neg (by simp [hc])]
    rw [ih r (acc ++ [c]) (fun d hd => h d (List.mem_cons_of_mem c hd))]
    simp

theorem fields_joinSpace (ts : List Str)
    (h : ∀ t ∈ ts, t ≠ [] ∧ ∀ c ∈ t, isGoSpace c = false) :
    fields (joinSpace ts) = ts := by
  induction ts with
  | nil => rfl
  | cons t ts' ih =>
    cases ts' with
    | nil =>
      obtain ⟨hne, hns⟩ := h t (List.mem_cons_self t [])
      have h1 := fieldsAux_nonspace_chunk t [] [] hns
      rw [List.append_nil] at h1
      show fieldsAux t [] = [t]
      rw [h1]
      simp [fieldsAux, hne]
    | cons t2 ts'' =>
      obtain ⟨hne, hns⟩ := h t (List.mem_cons_self t _)
      show fieldsAux (t ++ ' ' :: joinSpace (t2 :: ts'')) [] = t :: t2 :: ts''
      rw [fieldsAux_nonspace_chunk t _ [] hns]
      simp only [List.nil_append, fieldsAux]
      rw [if_pos (by decide)]
      rw [if_neg hne]
      congr 1
      exact ih (fun u hu => h u (List.mem_cons_of_mem t hu))

theorem fieldsAux_tokens_wf (s : Str) :
    ∀ acc, (∀ c ∈ acc, isGoSpace c = false) →
      ∀ t ∈ fieldsAux s acc, t ≠ [] ∧ ∀ c ∈ t, isGoSpace c = false := by
  induction s with
  | nil =>
    intro acc hacc t ht
    simp only [fieldsAux] at ht
    by_cases hne : acc = []
    · simp [hne] at ht
    · rw [if_neg hne] at ht
      rcases List.mem_singleton.mp ht with h1
      subst h1
      exact ⟨hne, hacc⟩
  | cons c s' ih =>
    intro acc hacc t ht
    simp only [fieldsAux] at ht
    by_cases hsp : isGoSpace c
    · rw [if_pos hsp] at ht
      by_cases hne : acc = []
      · rw [if_pos hne] at ht
        exact ih [] (by simp) t ht
      · rw [if_neg hne] at ht
        rcases List.mem_cons.mp ht with h1 | h2
        · subst h1; exact ⟨hne, hacc⟩
        · exact ih [] (by simp) t h2
    · rw [if_neg hsp] at ht
      refine ih (acc ++ [c]) ?_ t ht
      intro d hd
      rcases List.mem_append.mp hd with h1 | h2
      · exact hacc d h1
      · rcases List.mem_singleton.mp h2 with h3
        subst h3
        exact Bool.eq_false_iff.mpr hsp

theorem fieldsAux_head_extends (s : Str) :
    ∀ acc, acc ≠ [] → ∃ ext rest, fieldsAux s acc = (acc ++ ext) :: rest := by
  induction s with
  | nil => intro acc hacc; exact ⟨[], [], by simp [fieldsAux, hacc]⟩
  | cons c s' ih =>
    intro acc hacc
    by_cases hsp : isGoSpace c
    · exact ⟨[], fieldsAux s' [], by simp [fieldsAux, hsp, hacc]⟩
    · obtain ⟨ext, rest, hr⟩ := ih (acc ++ [c]) (by simp)
      exact ⟨[c] ++ ext, rest, by simp [fieldsAux, hsp, hr]⟩

theorem startsWith_append_self (pre z : Str) : startsWith pre (pre ++ z) = true := by
  induction pre with
  | nil => cases z <;> rfl
  | cons c p ih => simp [startsWith, List.isPrefixOf, List.cons_append]

theorem isSuffix_all_ne_nil (x : Str) (h : isSuffix "all".data x = true) : x ≠ [] := by
  intro hx
  subst hx
  simp [isSuffix, List.isSuffixOf] at h

theorem classifyTokens_unknown_chunk (us : List Str) :
    ∀ rest allM mechs unknowns,
      (∀ u ∈ us, isSuffix "all".data u = false ∧ isSPFMechanism u = false) →
      classifyTokens (us ++ rest) allM mechs unknowns =
        classifyTokens rest allM mechs (unknowns ++ us) := by
  induction us with
  | nil => intro rest allM mechs unknowns _; simp
  | cons u us' ih =>
    intro rest allM mechs unknowns h
    obtain ⟨h1, h2⟩ := h u (List.mem_cons_self u us')
    show classifyTokens (u :: (us' ++ rest)) allM mechs unknowns = _
    simp only [classifyTokens]
    rw [if_neg (by simp [h1]), if_neg (by simp [h2])]
    rw [ih rest allM mechs (unknowns ++ [u]) (fun x hx => h x (List.mem_cons_of_mem u hx))]
    simp

theorem classifyTokens_mech_chunk (ms : List Str) :
    ∀ rest allM mechs unknowns,
      (∀ m ∈ ms, isSuffix "all".data m = false ∧ isSPFMechanism m = true) →
      classifyTokens (ms ++ rest) allM mechs unknowns =
        classifyTokens rest allM (mechs ++ ms) unknowns := by
  induction ms with
  | nil => intro rest allM mechs unknowns _; simp
  | cons m ms' ih =>
    intro rest allM mechs unknowns h
    obtain ⟨h1, h2⟩ := h m (List.mem_cons_self m ms')
    show classifyTokens (m :: (ms' ++ rest)) allM mechs unknowns = _
    simp only [classifyTokens]
    rw [if_neg (by simp [h1]), if_pos h2]
    rw [ih rest allM (mechs ++ [m]) unknowns (fun x hx => h x (List.mem_cons_of_mem m hx))]
    simp

theorem classifyTokens_inv (rest : List Str) :
    ∀ allM mechs unknowns,
      (∀ x ∈ mechs, isSuffix "all".data x = false ∧ isSPFMechanism x = true) →
      (∀ x ∈ unknowns, isSuffix "all".data x = false ∧ isSPFMechanism x = false) →
      (allM = [] ∨ isSuffix "all".data allM = true) →
      (∀ x ∈ (classifyTokens rest allM mechs unknowns).2.1,
          (isSuffix "all".data x = false ∧ isSPFMechanism x = true) ∧
          (x ∈ mechs ∨ x ∈ rest)) ∧
      (∀ x ∈ (classifyTokens rest allM mechs unknowns).2.2,
          (isSuffix "all".data x = false ∧ isSPFMechanism x = false) ∧
          (x ∈ unknowns ∨ x ∈ rest)) ∧
      ((classifyTokens rest allM mechs unknowns).1 = [] ∨
        (isSuffix "all".data (classifyTokens rest allM mechs unknowns).1 = true ∧
          ((classifyTokens rest allM mechs unknowns).1 = allM ∨
            (classifyTokens rest allM mechs unknowns).1 ∈ rest))) := by
  induction rest with
  | nil =>
    intro allM mechs unknowns hm hu ha
    simp only [classifyTokens]
    refine ⟨fun x hx => ⟨hm x hx, Or.inl hx⟩, fun x hx => ⟨hu x hx, Or.inl hx⟩, ?_⟩
    rcases ha with h | h
    · exact Or.inl h
    · exact Or.inr ⟨h, by simp⟩
  | cons p rest' ih =>
    intro allM mechs unknowns hm hu ha
    simp only [classifyTokens]
    by_cases h1 : isSuffix "all".data p = true
    · rw [if_pos h1]
      have hrec := ih p mechs unknowns hm hu (Or.inr h1)
      refine ⟨fun x hx => ?_, fun x hx => ?_, ?_⟩
      · obtain ⟨hp, hq⟩ := hrec.1 x hx
        exact ⟨hp, hq.elim Or.inl (fun h => Or.inr (List.mem_cons_of_mem p h))⟩
      · obtain ⟨hp, hq⟩ := hrec.2.1 x hx
        exact ⟨hp, hq.elim Or.inl (fun h => Or.inr (List.mem_cons_of_mem p h))⟩
      · rcases hrec.2.2 with h | ⟨hs, hmem⟩
        · exact Or.inl h
        · refine Or.inr ⟨hs, Or.inr ?_⟩
          rcases hmem with h | h
          · rw [h]; exact List.mem_cons_self p rest'
          · exact List.mem_cons_of_mem p h
    · rw [if_neg h1]
      have h1f : isSuffix "all".data p = false := by simpa using h1
      by_cases h2 : isSPFMechanism p = true
      · rw [if_pos h2]
        have hm2 : ∀ x ∈ mechs ++ [p],
            isSuffix "all".data x = false ∧ isSPFMechanism x = true := by
          intro x hx
          rcases List.mem_append.mp hx with h | h
          · exact hm x h
          · rw [List.mem_singleton.mp h]; exact ⟨h1f, h2⟩
        have hrec := ih allM (mechs ++ [p]) unknowns hm2 hu ha
        refine ⟨fun x hx => ?_, fun x hx => ?_, ?_⟩
        · obtain ⟨hp, hq⟩ := hrec.1 x hx
          refine ⟨hp, ?_⟩
          rcases hq with h | h
          · rcases List.mem_append.mp h with h3 | h3
            · exact Or.inl h3
            · exact Or.inr (List.mem_cons.mpr (Or.inl (List.mem_singleton.mp h3)))
          · exact Or.inr (List.mem_cons_of_mem p h)
        · obtain ⟨hp, hq⟩ := hrec.2.1 x hx
          exact ⟨hp, hq.elim Or.inl (fun h => Or.inr (List.mem_cons_of_mem p h))⟩
        · rcases hrec.2.2 with h | ⟨hs, hmem⟩
          · exact Or.inl h
          · refine Or.inr ⟨hs, ?_⟩
            rcases hmem with h | h
            · exact Or.inl h
            · exact Or.inr (List.mem_cons_of_mem p h)
      · rw [if_neg h2]
        have h2f : isSPFMechanism p = false := by simpa using h2
        have hu2 : ∀ x ∈ unknowns ++ [p],
            isSuffix "all".data x = false ∧ isSPFMechanism x = false := by
          intro x hx
          rcases List.mem_append.mp hx with h | h
          · exact hu x h
          · rw [List.mem_singleton.mp h]; exact ⟨h1f, h2f⟩
        have hrec := ih allM mechs (unknowns ++ [p]) hm hu2 ha
        refine ⟨fun x hx => ?_, fun x hx => ?_, ?_⟩
        · obtain ⟨hp, hq⟩ := hrec.1 x hx
          exact ⟨hp, hq.elim Or.inl (fun h => Or.inr (List.mem_cons_of_mem p h))⟩
        · obtain ⟨hp, hq⟩ := hrec.2.1 x hx
          refine ⟨hp, ?_⟩
          rcases hq with h | h
          · rcases List.mem_append.mp h with h3 | h3
            · exact Or.inl h3
            · exact Or.inr (List.mem_cons.mpr (Or.inl (List.mem_singleton.mp h3)))
          · exact Or.inr (List.mem_cons_of_mem p h)
        · rcases hrec.2.2 with h | ⟨hs, hmem⟩
          · exact Or.inl h
          · refine Or.inr ⟨hs, ?_⟩
            rcases hmem with h | h
            · exact Or.inl h
            · exact Or.inr (List.mem_cons_of_mem p h)

theorem joinSpace_cons (t : Str) (ts : List Str) :
    joinSpace (t :: ts) = t ++ (if ts = [] then [] else ' ' :: joinSpace ts) := by
  cases ts <;> simp [joinSpace]

theorem fields_of_spf1 (s : Str) (hpre : startsWith "v=spf1".data s = true) :
    ∃ ext rest, fields s = ("v=spf1".data ++ ext) :: rest := by
  have hp : "v=spf1".data <+: s := by
    exact List.isPrefixOf_iff_prefix.mp hpre
  obtain ⟨tail, htail⟩ := hp
  obtain ⟨ext, rest, hr⟩ := fieldsAux_head_extends tail "v=spf1".data (by decide)
  refine ⟨ext, rest, ?_⟩
  have h1 : fields s = fieldsAux ("v=spf1".data ++ tail) [] := by rw [htail]; rfl
  rw [h1, fieldsAux_nonspace_chunk "v=spf1".data tail [] (by decide), List.nil_append, hr]

theorem normalizeSPF_eq_of_fields (z : Str) (p0 : Str) (rest : List Str)
    (hpre : startsWith "v=spf1".data z = true) (hf : fields z = p0 :: rest) :
    normalizeSPF z = .ok (joinSpace (p0 :: ((classifyTokens rest [] [] []).2.2 ++
      List.insertionSort (· ≤ ·) (classifyTokens rest [] [] []).2.1 ++
      (if (classifyTokens rest [] [] []).1 = [] then []
       else [(classifyTokens rest [] [] []).1])))) := by
  unfold normalizeSPF
  rw [hpre, hf]
  simp only [Bool.true_eq_false, if_false]

/-- C9: normalization is idempotent.  Every string accepted by
`NormalizeSPF` (every record beginning with `v=spf1`, including records
with unknown tokens and multiple tokens ending in "all") normalizes
successfully, and normalizing the result returns it unchanged. -/
theorem normalizeSPF_idempotent (s : Str)
    (hpre : startsWith "v=spf1".data s = true) :
    ∃ y, normalizeSPF s = .ok y ∧ normalizeSPF y = .ok y := by
  obtain ⟨ext, rest, hfs⟩ := fields_of_spf1 s hpre
  have hwf : ∀ t ∈ fields s, t ≠ [] ∧ ∀ c ∈ t, isGoSpace c = false :=
    fieldsAux_tokens_wf s [] (by simp)
  obtain ⟨a, m, u, hcl⟩ : ∃ a m u, classifyTokens rest [] [] [] = (a, m, u) := ⟨_, _, _, rfl⟩
  have hinv := classifyTokens_inv rest [] [] [] (by simp) (by simp) (Or.inl rfl)
  rw [hcl] at hinv
  obtain ⟨hm, hu, ha⟩ := hinv
  have hm2 : ∀ x ∈ m, (isSuffix "all".data x = false ∧ isSPFMechanism x = true) ∧ x ∈ rest := by
    intro x hx
    obtain ⟨hp, hq⟩ := hm x hx
    exact ⟨hp, hq.resolve_left (by simp)⟩
  have hu2 : ∀ x ∈ u, (isSuffix "all".data x = false ∧ isSPFMechanism x = false) ∧ x ∈ rest := by
    intro x hx
    obtain ⟨hp, hq⟩ := hu x hx
    exact ⟨hp, hq.resolve_left (by simp)⟩
  have ha2 : a = [] ∨ (isSuffix "all".data a = true ∧ a ∈ rest) := by
    rcases ha with h | ⟨hs, hq⟩
    · exact Or.inl h
    · exact Or.inr ⟨hs, hq.resolve_left (isSuffix_all_ne_nil a hs)⟩
  have hy : normalizeSPF s = .ok (joinSpace (("v=spf1".data ++ ext) :: (u ++
      List.insertionSort (· ≤ ·) m ++ (if a = [] then [] else [a])))) := by
    rw [normalizeSPF_eq_of_fields s _ rest hpre hfs, hcl]
  refine ⟨_, hy, ?_⟩
  have hp0mem : ("v=spf1".data ++ ext) ∈ fields s := by
    rw [hfs]; exact List.mem_cons_self _ _
  have hrestmem : ∀ x ∈ rest, x ∈ fields s := by
    intro x hx; rw [hfs]; exact List.mem_cons_of_mem _ hx
  have hsortmem : ∀ x ∈ List.insertionSort (· ≤ ·) m, x ∈ m := fun x hx =>
    ((List.perm_insertionSort (· ≤ ·) m).mem_iff).mp hx
  have htoks : ∀ t ∈ ("v=spf1".data ++ ext) ::
      (u ++ List.insertionSort (· ≤ ·) m ++ (if a = [] then [] else [a])),
      t ≠ [] ∧ ∀ c ∈ t, isGoSpace c = false := by
    intro t ht
    rcases List.mem_cons.mp ht with h | h
    · exact h ▸ hwf _ hp0mem
    · rcases List.mem_append.mp h with h2 | h2
      · rcases List.mem_append.mp h2 with h3 | h3
        · exact hwf t (hrestmem t (hu2 t h3).2)
        · exact hwf t (hrestmem t (hm2 t (hsortmem t h3)).2)
      · rcases ha2 with hnil | ⟨hs, hmem⟩
        · rw [if_pos hnil] at h2; simp at h2
        · rw [if_neg (isSuffix_all_ne_nil a hs)] at h2
          rw [List.mem_singleton.mp h2]
          exact hwf a (hrestmem a hmem)
  have hypre : startsWith "v=spf1".data (joinSpace (("v=spf1".data ++ ext) :: (u ++
      List.insertionSort (· ≤ ·) m ++ (if a = [] then [] else [a])))) = true := by
    rw [joinSpace_cons, List.append_assoc]
    exact startsWith_append_self _ _
  have hfy : fields (joinSpace (("v=spf1".data ++ ext) :: (u ++
      List.insertionSort (· ≤ ·) m ++ (if a = [] then [] else [a])))) =
      ("v=spf1".data ++ ext) ::
        (u ++ List.insertionSort (· ≤ ·) m ++ (if a = [] then [] else [a])) :=
    fields_joinSpace _ htoks
  have hclass : classifyTokens
      (u ++ List.insertionSort (· ≤ ·) m ++ (if a = [] then [] else [a])) [] [] [] =
      (a, List.insertionSort (· ≤ ·) m, u) := by
    rw [List.append_assoc]
    rw [classifyTokens_unknown_chunk u _ [] [] [] (fun x hx => (hu2 x hx).1)]
    rw [classifyTokens_mech_chunk (List.insertionSort (· ≤ ·) m) _ [] [] _
      (fun x hx => (hm2 x (hsortmem x hx)).1)]
    rcases ha2 with hnil | ⟨hs, _⟩
    · rw [if_pos hnil]
      simp [classifyTokens, hnil]
    · rw [if_neg (isSuffix_all_ne_nil a hs)]
      simp only [classifyTokens]
      rw [if_pos hs]
      simp [classifyTokens]
  have hsid : List.insertionSort (· ≤ ·) (List.insertionSort (· ≤ ·) m) =
      List.insertionSort (· ≤ ·) m :=
    List.Sorted.insertionSort_eq (List.sorted_insertionSort (· ≤ ·) m)
  rw [normalizeSPF_eq_of_fields _ _ _ hypre hfy, hclass]
  simp only [hsid]

/-- C9 witness: idempotence at a record with an unknown token and two
all-qualifier tokens. -/
theorem normalizeSPF_idempotent_witness :
    startsWith "v=spf1".data "v=spf1 mx zzz=1 a ~all include:b.com +all".data = true ∧
    ∃ y, normalizeSPF "v=spf1 mx zzz=1 a ~all include:b.com +all".data = .ok y ∧
      normalizeSPF y = .ok y :=
  ⟨by decide, normalizeSPF_idempotent _ (by decide)⟩

theorem staleCheck_ne_some_true (ck : List Str) (d n : Str) :
    ∀ fuel i, staleCheck ck d n fuel i ≠ some true := by
  intro fuel
  induction fuel with
  | zero => intro i; simp [staleCheck]
  | succ f ih =>
    intro i
    simp only [staleCheck]
    by_cases h1 : ¬ ck.contains ("spf".data ++ itoa i ++ '.' :: d) ∧
        n ≠ "spf".data ++ itoa i ++ '.' :: d
    · rw [if_pos h1]; exact ih (i + 1)
    · rw [if_neg h1]
      by_cases h2 : n = "spf".data ++ itoa i ++ '.' :: d
      · rw [if_pos h2]; simp
      · rw [if_neg h2]
        push_neg at h1
        have h3 : ck.contains ("spf".data ++ itoa i ++ '.' :: d) = true := by
          by_cases hc : ck.contains ("spf".data ++ itoa i ++ '.' :: d) = true
          · exact hc
          · exact absurd h2 (by simpa using h1 (by simpa using hc))
        rw [if_neg (not_not_intro h3)]
        exact ih (i + 1)

theorem staleDeleteLoop_nil_result (spfUnflat : Bool) (d : Str) (ck : List Str) (fuel : Nat) :
    ∀ names l, staleDeleteLoop spfUnflat d ck fuel names = some l → l = [] := by
  intro names
  induction names with
  | nil => intro l h; simpa [staleDeleteLoop] using h.symm
  | cons name rest ih =>
    intro l h
    simp only [staleDeleteLoop] at h
    by_cases hg : (startsWith "spf".data name && containsSubstr name d) = true
    · rw [if_pos hg] at h
      by_cases hu : spfUnflat = true ∧ name = "spf-unflat.".data ++ d
      · rw [if_pos hu] at h; exact ih l h
      · rw [if_neg hu] at h
        cases hsc : staleCheck ck d name fuel 0 with
        | none => rw [hsc] at h; exact absurd h (by simp)
        | some b =>
          cases b with
          | true => exact absurd hsc (staleCheck_ne_some_true ck d name fuel 0)
          | false => rw [hsc] at h; exact ih l h
    · rw [if_neg hg] at h; exact ih l h

theorem itoaAux_head_digit :
    ∀ fuel n, n < fuel → ∃ c cs, itoaAux fuel n = c :: cs ∧ 48 ≤ c.val.toNat ∧ c.val.toNat ≤ 57 := by
  intro fuel
  induction fuel with
  | zero => intro n hn; omega
  | succ f ih =>
    intro n hn
    by_cases h10 : n < 10
    · refine ⟨digitChar n, [], by simp [itoaAux, h10], ?_⟩
      interval_cases n <;> simp [digitChar] <;> decide
    · have hdiv : n / 10 < f := by omega
      obtain ⟨c, cs, hc, hlo, hhi⟩ := ih (n / 10) hdiv
      refine ⟨c, cs ++ [digitChar (n % 10)], ?_, hlo, hhi⟩
      simp [itoaAux, h10, hc]

theorem itoa_head_digit (n : Nat) :
    ∃ c cs, itoa n = c :: cs ∧ 48 ≤ c.val.toNat ∧ c.val.toNat ≤ 57 :=
  itoaAux_head_digit (n + 1) n (by omega)

theorem unflat_ne_spfN (d : Str) (i : Nat) :
    "spf-unflat.".data ++ d ≠ "spf".data ++ itoa i ++ '.' :: d := by
  intro h
  obtain ⟨c, cs, hc, hlo, hhi⟩ := itoa_head_digit i
  rw [hc] at h
  have h4 : '-' = c := by
    have := congrArg (fun l => l.get? 3) h
    simpa using this
  rw [← h4] at hlo
  have h45 : ('-').val.toNat = 45 := by decide
  omega

theorem unflat_ne_domain (d : Str) : "spf-unflat.".data ++ d ≠ d := by
  intro h
  have := congrArg List.length h
  simp at this
  omega

theorem emitRecords_keys (domain : Str) (n : Nat) :
    ∀ l i es, emitRecords domain n l i = some es →
      ∀ kv ∈ es, ∃ j, kv.1 = "spf".data ++ itoa j ++ '.' :: domain := by
  intro l
  induction l with
  | nil => intro i es h kv hkv; simp [emitRecords] at h; subst h; simp at hkv
  | cons rec rest ih =>
    intro i es h kv hkv
    simp only [emitRecords] at h
    cases ht : emitRecords domain n rest (i + 1) with
    | none =>
      rw [ht] at h
      repeat split at h
      all_goals simp_all
    | some t =>
      rw [ht] at h
      by_cases htr : (rec.length : Int) > 255 - (chainFor domain i n).length
      · rw [if_pos htr] at h
        by_cases hneg : (255 - ((chainFor domain i n).length : Int)) < 0
        · rw [if_pos hneg] at h; simp at h
        · rw [if_neg hneg] at h
          simp only [Option.map_some'] at h
          cases h
          rcases List.mem_cons.mp hkv with h1 | h2
          · exact ⟨i, by rw [h1]⟩
          · exact ih (i + 1) t ht kv h2
      · rw [if_neg htr] at h
        simp only [Option.map_some'] at h
        cases h
        rcases List.mem_cons.mp hkv with h1 | h2
        · exact ⟨i, by rw [h1]⟩
        · exact ih (i + 1) t ht kv h2

theorem splitAndChain_keys (s d : Str) (out : List (Str × Str))
    (h : splitAndChainSPF s d = some out) :
    ∀ kv ∈ out, kv.1 = d ∨ ∃ j, kv.1 = "spf".data ++ itoa j ++ '.' :: d := by
  intro kv hkv
  unfold splitAndChainSPF at h
  split at h
  next => cases h; rw [List.mem_singleton.mp hkv]; left; rfl
  next =>
    split at h
    next => exact absurd h (by simp)
    next p0 restParts hf =>
      split at h
      next => exact absurd h (by simp)
      next entries he =>
        cases h
        rcases List.mem_append.mp hkv with h1 | h2
        · exact Or.inr (emitRecords_keys d _ _ 0 entries he kv h1)
        · rw [List.mem_singleton.mp h2]; left; rfl

/-- C2: the record `spf-unflat.<domain>` never appears among the names the
flatten command deletes, for every option setting, every set of existing
records, every desired record set produced by `SplitAndChainSPF`, and
every mismatch condition in the delete-then-recreate branch.  (When the
`spf-unflat` option is unset and such a record exists, the staleness loop
does not terminate — `deletePhase` returns `none` — so no deletion is
issued on that path either; in fact the staleness scan never deletes any
record, because its stale exit is unreachable.) -/
theorem spf_unflat_never_deleted (spfUnflat : Bool) (d s : Str)
    (existing : List Str) (out : List (Str × Str)) (mismatchDel : Str → Bool)
    (fuel : Nat) (ds : List Str)
    (hsc : splitAndChainSPF s d = some out)
    (hdp : deletePhase spfUnflat d existing (out.map Prod.fst) mismatchDel fuel = some ds) :
    ("spf-unflat.".data ++ d) ∉ ds := by
  intro hmem
  unfold deletePhase at hdp
  cases hsd : staleDeleteLoop spfUnflat d (out.map Prod.fst) fuel existing with
  | none => rw [hsd] at hdp; exact absurd hdp (by simp)
  | some l =>
    rw [hsd] at hdp
    simp only [Option.map_some'] at hdp
    cases hdp
    have hl : l = [] := staleDeleteLoop_nil_result spfUnflat d _ fuel existing l hsd
    subst hl
    simp only [List.nil_append] at hmem
    have hkey := List.mem_filter.mp hmem
    obtain ⟨k, hk, hkeq⟩ := List.mem_map.mp hkey.1
    rcases splitAndChain_keys s d out hsc k hk with h1 | ⟨j, h2⟩
    · exact unflat_ne_domain d (hkeq ▸ h1 ▸ rfl)
    · exact unflat_ne_spfN d j (by rw [← hkeq, h2])

/-- C2 witness: with the `spf-unflat` option set, an existing
`spf-unflat.<domain>` record is skipped and nothing is deleted. -/
theorem spf_unflat_never_deleted_witness :
    splitAndChainSPF "v=spf1 ip4:192.0.2.1 ~all".data "d.com".data
      = some [("d.com".data, "v=spf1 ip4:192.0.2.1 ~all".data)] ∧
    deletePhase true "d.com".data ["spf-unflat.d.com".data]
      ([("d.com".data, "v=spf1 ip4:192.0.2.1 ~all".data)].map Prod.fst)
      (fun _ => false) 5 = some [] ∧
    ("spf-unflat.".data ++ "d.com".data) ∉ ([] : List Str) :=
  ⟨by decide, by decide,
   spf_unflat_never_deleted true "d.com".data "v=spf1 ip4:192.0.2.1 ~all".data
     ["spf-unflat.d.com".data] [("d.com".data, "v=spf1 ip4:192.0.2.1 ~all".data)]
     (fun _ => false) 5 [] (by decide) (by decide)⟩

/-- C4: the lookup-count gate of `FlattenSPFWithThreshold`.  With at most
10 required lookups and `force = false` the original record is returned
unchanged as both results with `was_flattened = false` and no flattening
runs; with `force = true` or a count above 10, `FlattenSPF` runs and a
successful flatten is reported with `was_flattened = true`. -/
theorem flattenWithThreshold_gate (aggFn : List Str → List Str) (env : DNSEnv)
    (domain : Str) (aggregate : Bool) :
    (∀ n orig, countDNSLookups env domain = .ok n → n ≤ 10 →
      (env.txt domain).find? (fun r => startsWith "v=spf1".data r) = some orig →
      flattenSPFWithThreshold aggFn env domain aggregate false = .ok (orig, orig, n, false)) ∧
    (∀ force n orig o f, countDNSLookups env domain = .ok n →
      (env.txt domain).find? (fun r => startsWith "v=spf1".data r) = some orig →
      (10 < n ∨ force = true) →
      flattenSPF aggFn env domain aggregate = .ok (o, f) →
      flattenSPFWithThreshold aggFn env domain aggregate force = .ok (orig, f, n, true)) := by
  constructor
  · intro n orig hc hn horig
    unfold flattenSPFWithThreshold
    rw [hc, horig]
    have h1 : ¬ (10 < n ∨ false = true) := by
      simp only [Bool.false_eq_true, or_false]
      omega
    simp [h1]
    intro h2
    exact absurd h2 (by omega)
  · intro force n orig o f hc horig hgate hfl
    unfold flattenSPFWithThreshold
    rw [hc, horig]
    simp [hgate, hfl]

/-- C4 witness: a one-lookup record is left unchanged without force and
flattened with force. -/
theorem flattenWithThreshold_gate_witness :
    (countDNSLookups exEnv "ex.com".data = .ok 1 ∧ (1 : Nat) ≤ 10 ∧
      flattenSPFWithThreshold id exEnv "ex.com".data false false
        = .ok ("v=spf1 ip4:1.2.3.4 ~all".data, "v=spf1 ip4:1.2.3.4 ~all".data, 1, false)) ∧
    (flattenSPF id exEnv "ex.com".data false
        = .ok ("v=spf1 ip4:1.2.3.4 ~all".data, "v=spf1 ip4:1.2.3.4 ~all".data) ∧
      flattenSPFWithThreshold id exEnv "ex.com".data false true
        = .ok ("v=spf1 ip4:1.2.3.4 ~all".data, "v=spf1 ip4:1.2.3.4 ~all".data, 1, true)) :=
  ⟨⟨by rfl, by decide,
    (flattenWithThreshold_gate id exEnv "ex.com".data false).1 1
      "v=spf1 ip4:1.2.3.4 ~all".data (by rfl) (by decide) (by rfl)⟩,
   ⟨by rfl,
    (flattenWithThreshold_gate id exEnv "ex.com".data false).2 true 1
      "v=spf1 ip4:1.2.3.4 ~all".data "v=spf1 ip4:1.2.3.4 ~all".data
      "v=spf1 ip4:1.2.3.4 ~all".data (by rfl) (by rfl) (Or.inr rfl) (by rfl)⟩⟩

theorem exceptBindOk {e a b : Type} (x : a) (g : a → Except e b) :
    (Except.ok x >>= g) = g x := rfl

theorem exceptBindErr {e a b : Type} (err : e) (g : a → Except e b) :
    ((Except.error err : Except e a) >>= g) = Except.error err := rfl

theorem exceptMapOk {e a b : Type} (f : a → b) (x : a) :
    Except.map f (Except.ok x : Except e a) = Except.ok (f x) := rfl

theorem exceptMapErr {e a b : Type} (f : a → b) (err : e) :
    Except.map f (Except.error err : Except e a) = Except.error err := rfl

theorem exceptPure {e a : Type} (x : a) : (pure x : Except e a) = Except.ok x := rfl

theorem countMech_ok_eq (env : DNSEnv) :
    ∀ fuel dom mech n, countMech env fuel dom mech = .ok n →
      n = codeTreeCost env fuel mech := by
  intro fuel
  induction fuel with
  | zero => intro dom mech n h; exact absurd h (by simp [countMech])
  | succ f ih =>
    intro dom mech n h
    have inner2 : ∀ tgt (recs : List Str) acc2 b,
        (recs.foldlM (fun acc2 rec =>
          if startsWith "v=spf1".data rec then
            (countMech env f tgt rec).map (acc2 + ·)
          else pure acc2) acc2 : Except SPFError Nat) = .ok b →
        b = acc2 + (recs.map (fun rec =>
          if startsWith "v=spf1".data rec then codeTreeCost env f rec else 0)).sum := by
      intro tgt recs
      induction recs with
      | nil =>
        intro acc2 b hb
        rw [List.foldlM_nil, exceptPure] at hb
        cases hb
        simp
      | cons rec rest ihr =>
        intro acc2 b hb
        rw [List.foldlM_cons] at hb
        by_cases hv : startsWith "v=spf1".data rec = true
        · rw [if_pos hv] at hb
          cases hcm : countMech env f tgt rec with
          | error e =>
            rw [hcm, exceptMapErr, exceptBindErr] at hb
            exact absurd hb (by simp)
          | ok c =>
            rw [hcm, exceptMapOk, exceptBindOk] at hb
            have hs := ihr (acc2 + c) b hb
            rw [hs, List.map_cons, List.sum_cons, if_pos hv, ih tgt rec c hcm]
            omega
        · rw [if_neg hv, exceptPure, exceptBindOk] at hb
          have hs := ihr acc2 b hb
          rw [hs, List.map_cons, List.sum_cons, if_neg hv]
          omega
    have inner : ∀ (parts : List Str) acc n,
        (parts.foldlM (fun acc part =>
          if startsWith "include:".data part then
            (env.txt (part.drop 8)).foldlM (fun acc2 rec =>
              if startsWith "v=spf1".data rec then
                (countMech env f (part.drop 8) rec).map (acc2 + ·)
              else pure acc2) (acc + 1)
          else if startsWith "a".data part then pure (acc + 1)
          else if startsWith "mx".data part then pure (acc + 1)
          else pure acc) acc : Except SPFError Nat) = .ok n →
        n = acc + (parts.map (fun part =>
          codeTokenCost part +
          (if startsWith "include:".data part then
            ((env.txt (part.drop 8)).map (fun rec =>
              if startsWith "v=spf1".data rec then codeTreeCost env f rec else 0)).sum
           else 0))).sum := by
      intro parts
      induction parts with
      | nil =>
        intro acc n hn
        rw [List.foldlM_nil, exceptPure] at hn
        cases hn
        simp
      | cons part rest ihp =>
        intro acc n hn
        rw [List.foldlM_cons] at hn
        by_cases hinc : startsWith "include:".data part = true
        · rw [if_pos hinc] at hn
          cases hfold : ((env.txt (part.drop 8)).foldlM (fun acc2 rec =>
              if startsWith "v=spf1".data rec then
                (countMech env f (part.drop 8) rec).map (acc2 + ·)
              else pure acc2) (acc + 1) : Except SPFError Nat) with
          | error e =>
            rw [hfold, exceptBindErr] at hn
            exact absurd hn (by simp)
          | ok a1 =>
            rw [hfold, exceptBindOk] at hn
            have h1 := inner2 (part.drop 8) _ _ _ hfold
            have h2 := ihp a1 n hn
            rw [h2, h1, List.map_cons, List.sum_cons, if_pos hinc]
            simp only [codeTokenCost, if_pos hinc]
            omega
        · rw [if_neg hinc] at hn
          by_cases ha : startsWith "a".data part = true
          · rw [if_pos ha, exceptPure, exceptBindOk] at hn
            have h2 := ihp (acc + 1) n hn
            rw [h2, List.map_cons, List.sum_cons, if_neg hinc]
            simp only [codeTokenCost, if_neg hinc, if_pos ha]
            omega
          · rw [if_neg ha] at hn
            by_cases hmx : startsWith "mx".data part = true
            · rw [if_pos hmx, exceptPure, exceptBindOk] at hn
              have h2 := ihp (acc + 1) n hn
              rw [h2, List.map_cons, List.sum_cons, if_neg hinc]
              simp only [codeTokenCost, if_neg hinc, if_neg ha, if_pos hmx]
              omega
            · rw [if_neg hmx, exceptPure, exceptBindOk] at hn
              have h2 := ihp acc n hn
              rw [h2, List.map_cons, List.sum_cons, if_neg hinc]
              simp only [codeTokenCost, if_neg hinc, if_neg ha, if_neg hmx]
              omega
    have := inner (fields mech) 0 n (by simpa [countMech] using h)
    rw [this]
    simp [codeTreeCost]

/-- C5 counterexample: the record `"v=spf1 all"` needs no lookup beyond the
apex fetch under the claim's accounting (a bare `all` is the all
qualifier, contributing 0), but `CountDNSLookups` returns 2: the `a`
prefix test counts the bare `all` as an `a` mechanism. -/
theorem countLookups_counts_bare_all :
    countDNSLookups allEnv "ex.com".data = .ok 2 ∧
    1 + claimTreeCost allEnv 11 "v=spf1 all".data = 1 ∧
    (2 : Nat) ≠ 1 :=
  ⟨by rfl, by rfl, by decide⟩

/-- C5 (amended): `CountDNSLookups` returns 1 for the apex TXT fetch when
no `v=spf1` record exists, and otherwise 1 plus one lookup for every
token of the expansion tree that begins with `include:` (counted on
every occurrence, cache hits included), begins with `a` (which covers
`a`, `a:<host>`, but also a bare `all` and any other `a...` token), or
begins with `mx`; all other tokens — `ip4:`, `ip6:`, the qualifier
forms `~all`/`-all`/`+all`/`?all`, `redirect=`, `exp=` — contribute 0. -/
theorem countLookups_formula (env : DNSEnv) (domain : Str) :
    ((env.txt domain).find? (fun r => startsWith "v=spf1".data r) = none →
      countDNSLookups env domain = .ok 1) ∧
    (∀ rec n, (env.txt domain).find? (fun r => startsWith "v=spf1".data r) = some rec →
      countDNSLookups env domain = .ok n → n = 1 + codeTreeCost env 11 rec) := by
  constructor
  · intro h
    unfold countDNSLookups
    rw [h]
  · intro rec n hrec hn
    unfold countDNSLookups at hn
    rw [hrec] at hn
    have hn2 : Except.map (fun x => 1 + x) (countMech env 11 domain rec) = Except.ok n := hn
    cases hcm : countMech env 11 domain rec with
    | error e => rw [hcm, exceptMapErr] at hn2; exact absurd hn2 (by simp)
    | ok c =>
      rw [hcm, exceptMapOk] at hn2
      cases hn2
      rw [countMech_ok_eq env 11 domain rec c hcm]

/-- C5 witness: the amended formula at a record containing one include,
one `a`, one `mx:`, plus non-counting `ip4:`, `redirect=`, `exp=`, `~all`. -/
theorem countLookups_formula_witness :
    (richEnv.txt "ex.com".data).find? (fun r => startsWith "v=spf1".data r) =
      some "v=spf1 ip4:1.2.3.4 include:inc.com a mx:m.com redirect=r.com exp=e.com ~all".data ∧
    countDNSLookups richEnv "ex.com".data = .ok 4 ∧
    (4 : Nat) = 1 + codeTreeCost richEnv 11
      "v=spf1 ip4:1.2.3.4 include:inc.com a mx:m.com redirect=r.com exp=e.com ~all".data :=
  ⟨by rfl, by rfl,
   (countLookups_formula richEnv "ex.com".data).2
     "v=spf1 ip4:1.2.3.4 include:inc.com a mx:m.com redirect=r.com exp=e.com ~all".data 4
     (by rfl) (by rfl)⟩

theorem foldlM_ok_forall {e a b : Type} (f : b → a → Except e b) :
    ∀ (l : List a) (x r : b), l.foldlM f x = .ok r →
      ∀ y ∈ l, ∃ x2 r2, f x2 y = .ok r2 := by
  intro l
  induction l with
  | nil => intro x r _ y hy; simp at hy
  | cons z zs ih =>
    intro x r h y hy
    rw [List.foldlM_cons] at h
    cases hz : f x z with
    | error err => rw [hz, exceptBindErr] at h; exact absurd h (by simp)
    | ok x1 =>
      rw [hz, exceptBindOk] at h
      rcases List.mem_cons.mp hy with h1 | h2
      · exact ⟨x, x1, h1 ▸ hz⟩
      · exact ih x1 r h y h2

theorem procMech_ok_no_revisit (env : DNSEnv) :
    ∀ f2 fuel stack ips dom mech res,
      procMech env fuel stack ips dom mech = .ok res →
      revisitWithin env f2 stack dom mech = false := by
  intro f2
  induction f2 with
  | zero => intro fuel stack ips dom mech res _; rfl
  | succ g ihg =>
    intro fuel stack ips dom mech res h
    cases fuel with
    | zero => exact absurd h (by simp [procMech])
    | succ k =>
      simp only [procMech] at h
      by_cases hdom : dom ∈ stack
      · rw [if_pos hdom] at h; exact absurd h (by simp)
      · rw [if_neg hdom] at h
        simp only [revisitWithin, Bool.or_eq_false_iff]
        refine ⟨by simp [hdom], ?_⟩
        rw [List.any_eq_false]
        intro part hpart
        simp only [Bool.not_eq_true]
        by_cases hinc : startsWith "include:".data part = true
        · rw [hinc, Bool.true_and]
          rw [List.any_eq_false]
          intro rec hrec
          simp only [Bool.not_eq_true]
          by_cases hv : startsWith "v=spf1".data rec = true
          · rw [hv, Bool.true_and]
            obtain ⟨x2, r2, hcall⟩ := foldlM_ok_forall _ (fields mech) ips res h part hpart
            rw [if_pos hinc] at hcall
            obtain ⟨x3, r3, hcall2⟩ :=
              foldlM_ok_forall _ (env.txt (part.drop 8)) x2 r2 hcall rec hrec
            rw [if_pos hv] at hcall2
            exact ihg k (dom :: stack) x3 (part.drop 8) rec r3 hcall2
          · simp [hv]
        · simp [hinc]

/-- C6 (amended): whenever the include expansion reachable from the root
revisits a domain already on the current expansion path (at any depth),
`FlattenSPF` fails with an error — a cycle error when the revisit is
reached within the recursion-depth limit, a depth error otherwise — and
never returns a flattened record. -/
theorem revisit_implies_flatten_error (aggFn : List Str → List Str) (env : DNSEnv)
    (root rec : Str) (agg : Bool) (fuel : Nat)
    (hrec : (env.txt root).find? (fun r => startsWith "v=spf1".data r) = some rec)
    (hrev : revisitWithin env fuel [] root rec = true) :
    ∃ e, flattenSPF aggFn env root agg = .error e := by
  cases hfl : flattenSPF aggFn env root agg with
  | error e => exact ⟨e, rfl⟩
  | ok pr =>
    exfalso
    unfold flattenSPF at hfl
    rw [hrec] at hfl
    have hfl2 : (match procMech env 11 [] [] root rec with
      | .error e => (.error e : Except SPFError (Str × Str))
      | .ok ips =>
        if ips = [] then .ok (rec, rec)
        else
          .ok (rec, "v=spf1 ".data ++
            joinSpace (List.insertionSort (· ≤ ·) (if agg then aggFn ips else ips)) ++
            " ~all".data)) = .ok pr := hfl
    cases hpm : procMech env 11 [] [] root rec with
    | error e => rw [hpm] at hfl2; exact absurd hfl2 (by simp)
    | ok res =>
      have := procMech_ok_no_revisit env fuel 11 [] [] root rec res hpm
      rw [this] at hrev
      exact absurd hrev (by simp)

/-- C6 counterexample: in `chainEnv` the include chain revisits `a` (a
domain on the current expansion path), yet `FlattenSPF` fails with the
recursion-depth error for `l`, not with a cycle error — the depth check
fires before the revisit is reached. -/
theorem cycle_beyond_depth_gives_depth_error :
    revisitWithin chainEnv 13 [] "a".data "v=spf1 include:b ~all".data = true ∧
    flattenSPF id chainEnv "a".data false = .error (.depthExceeded "l".data) ∧
    ∀ s, SPFError.depthExceeded "l".data ≠ SPFError.recursionDetected s :=
  ⟨by rfl, by rfl, fun s h => SPFError.noConfusion h⟩

/-- C6 witness: the amended theorem applied to the S5 two-domain cycle
(where the error is indeed the cycle error). -/
theorem revisit_implies_flatten_error_witness :
    (cycEnv.txt "x.com".data).find? (fun r => startsWith "v=spf1".data r) =
      some "v=spf1 include:y.com ~all".data ∧
    revisitWithin cycEnv 3 [] "x.com".data "v=spf1 include:y.com ~all".data = true ∧
    (∃ e, flattenSPF id cycEnv "x.com".data false = .error e) ∧
    flattenSPF id cycEnv "x.com".data false = .error (.recursionDetected "x.com".data) :=
  ⟨by rfl, by rfl,
   revisit_implies_flatten_error id cycEnv "x.com".data
     "v=spf1 include:y.com ~all".data false 3 (by rfl) (by rfl),
   by rfl⟩

theorem l2leLoop_sound (value : Nat) (h1 : 1 ≤ value) (h2 : value < 2 ^ 31) :
    ∀ fuel j, (j = 0 ∨ 2 ^ (j - 1) ≤ value) → value < 2 ^ (j + fuel) →
      ∃ k, l2leLoop value (fuel + 1) (2 ^ j) = some (2 ^ k) ∧
        2 ^ k ≤ value ∧ value < 2 ^ (k + 1) := by
  intro fuel
  induction fuel with
  | zero =>
    intro j hinv hb
    rw [Nat.add_zero] at hb
    rw [l2leLoop, if_neg (by omega)]
    have hj : 1 ≤ j := by
      rcases hinv with h | h
      · exfalso; subst h; simp at hb; omega
      · by_contra hc
        push_neg at hc
        interval_cases j
        · simp at hb; omega
    have hjs : j = (j - 1) + 1 := by omega
    have hdiv : 2 ^ j / 2 = 2 ^ (j - 1) := by
      conv_lhs => rw [hjs, Nat.pow_succ]
      omega
    refine ⟨j - 1, by rw [hdiv], ?_, ?_⟩
    · rcases hinv with h | h
      · omega
      · exact h
    · rw [← hjs]; exact hb
  | succ fuel ih =>
    intro j hinv hb
    rw [l2leLoop]
    by_cases hle : 2 ^ j ≤ value
    · rw [if_pos hle]
      have hj30 : j ≤ 30 := by
        by_contra hc
        push_neg at hc
        have : 2 ^ 31 ≤ 2 ^ j := Nat.pow_le_pow_right (by norm_num) (by omega)
        omega
      have hmod : 2 ^ j * 2 % u32 = 2 ^ (j + 1) := by
        rw [← Nat.pow_succ]
        apply Nat.mod_eq_of_lt
        have h31 : 2 ^ (j + 1) ≤ 2 ^ 31 := Nat.pow_le_pow_right (by norm_num) (by omega)
        have : (2 : Nat) ^ 31 < u32 := by norm_num [u32]
        omega
      rw [hmod]
      refine ih (j + 1) (Or.inr (by simpa using hle)) ?_
      rw [show j + 1 + fuel = j + (fuel + 1) from by omega]
      exact hb
    · rw [if_neg hle]
      push_neg at hle
      have hj : 1 ≤ j := by
        by_contra hc
        push_neg at hc
        interval_cases j
        · simp at hle; omega
      have hjs : j = (j - 1) + 1 := by omega
      have hdiv : 2 ^ j / 2 = 2 ^ (j - 1) := by
        conv_lhs => rw [hjs, Nat.pow_succ]
        omega
      refine ⟨j - 1, by rw [hdiv], ?_, ?_⟩
      · rcases hinv with h | h
        · omega
        · exact h
      · rw [← hjs]; exact hle

theorem l2le_spec (value : Nat) (h1 : 1 ≤ value) (h2 : value < 2 ^ 31) :
    ∃ k, largestPowerOfTwoLessOrEqual value = some (2 ^ k) ∧
      2 ^ k ≤ value ∧ value < 2 ^ (k + 1) := by
  rw [largestPowerOfTwoLessOrEqual, if_neg (by omega)]
  have h := l2leLoop_sound value h1 h2 32 0 (Or.inl rfl)
    (by rw [Nat.zero_add]; exact h2.trans (by norm_num))
  simpa using h

theorem alignLoop_spec : ∀ k fuel s, k < fuel →
    ∃ j, j ≤ k ∧ alignLoop fuel s (2 ^ k) = 2 ^ j ∧ s % 2 ^ j = 0 := by
  intro k
  induction k with
  | zero =>
    intro fuel s hf
    match fuel, hf with
    | fuel + 1, _ =>
      refine ⟨0, le_refl 0, ?_, by simp [Nat.mod_one]⟩
      rw [alignLoop]
      simp [Nat.mod_one]
  | succ k ih =>
    intro fuel s hf
    match fuel, hf with
    | fuel + 1, hf =>
      rw [alignLoop]
      by_cases hmod : s % 2 ^ (k + 1) = 0
      · rw [if_neg (by simpa using hmod)]
        exact ⟨k + 1, le_refl _, rfl, hmod⟩
      · rw [if_pos (by simpa using hmod)]
        have hdiv : 2 ^ (k + 1) / 2 = 2 ^ k := by
          rw [Nat.pow_succ]
          omega
        rw [hdiv]
        obtain ⟨j, hj, he, hm⟩ := ih fuel s (by omega)
        exact ⟨j, by omega, he, hm⟩

theorem ilog2_pow : ∀ k fuel, k < fuel → ilog2 fuel (2 ^ k) = k := by
  intro k
  induction k with
  | zero =>
    intro fuel hf
    match fuel, hf with
    | fuel + 1, _ => rw [ilog2]; simp
  | succ k ih =>
    intro fuel hf
    match fuel, hf with
    | fuel + 1, hf =>
      rw [ilog2]
      have h2 : ¬ (2 ^ (k + 1) ≤ 1) := by
        have : (2 : Nat) ^ 1 ≤ 2 ^ (k + 1) := Nat.pow_le_pow_right (by norm_num) (by omega)
        simp at this
        omega
      rw [if_neg h2]
      have hdiv : 2 ^ (k + 1) / 2 = 2 ^ k := by rw [Nat.pow_succ]; omega
      rw [hdiv, ih fuel (by omega)]

theorem v6PowLoop_sound (maxSize : Nat) :
    ∀ fuel j, 2 ^ j ≤ maxSize → maxSize < 2 ^ (j + fuel + 1) →
      ∃ k, v6PowLoop maxSize (fuel + 1) (2 ^ j) = some (2 ^ k) ∧
        2 ^ k ≤ maxSize ∧ maxSize < 2 ^ (k + 1) := by
  intro fuel
  induction fuel with
  | zero =>
    intro j hinv hb
    rw [Nat.add_zero] at hb
    rw [v6PowLoop, if_neg (by rw [← Nat.pow_succ]; omega)]
    exact ⟨j, rfl, hinv, by omega⟩
  | succ fuel ih =>
    intro j hinv hb
    rw [v6PowLoop]
    by_cases hle : 2 ^ j * 2 ≤ maxSize
    · rw [if_pos hle, ← Nat.pow_succ]
      refine ih (j + 1) (by rw [Nat.pow_succ]; exact hle) ?_
      rw [show j + 1 + fuel + 1 = j + (fuel + 1) + 1 from by omega]
      exact hb
    · rw [if_neg hle]
      rw [← Nat.pow_succ] at hle
      exact ⟨j, rfl, hinv, by omega⟩

theorem goodCidr4_mono {s s' e : Nat} (h : s ≤ s') :
    ∀ c, goodCidr4 s' e c → goodCidr4 s e c := by
  intro c hc
  cases c with
  | single a => simp only [goodCidr4] at *; omega
  | block b p => simp only [goodCidr4] at *; omega

theorem rangeToExact_empty : ∀ fuel s e, 0 < fuel → e < s →
    rangeToExactCIDRs fuel s e = some [] := by
  intro fuel s e hf he
  match fuel, hf with
  | fuel + 1, _ =>
    rw [rangeToExactCIDRs, if_neg (by omega)]

theorem rangeToExact_cover : ∀ fuel s e, s ≤ e → e + 1 - s < 2 ^ 31 → e ≤ u32 - 2 →
    e + 2 - s ≤ fuel →
    ∃ cs, rangeToExactCIDRs fuel s e = some cs ∧
      (∀ c ∈ cs, goodCidr4 s e c) ∧
      (∀ n, s ≤ n → n ≤ e → ∃ c ∈ cs, inCidr4 n c) := by
  intro fuel
  induction fuel with
  | zero => intro s e hse _ _ hfuel; omega
  | succ fuel ih =>
    intro s e hse hsize hetop hfuel
    have hu : u32 = 4294967296 := rfl
    rw [rangeToExactCIDRs, if_pos hse]
    have hv : (e - s + 1) % u32 = e - s + 1 := Nat.mod_eq_of_lt (by omega)
    obtain ⟨k, hk, hk1, hk2⟩ := l2le_spec (e - s + 1) (by omega) (by omega)
    rw [hv, hk]
    simp only [Option.some_bind]
    have hk30 : k ≤ 30 := by
      by_contra hc
      push_neg at hc
      have : 2 ^ 31 ≤ 2 ^ k := Nat.pow_le_pow_right (by norm_num) (by omega)
      omega
    obtain ⟨j, hjk, halign, hsmod⟩ := alignLoop_spec k 33 s (by omega)
    rw [halign]
    have hil : ilog2 34 (2 ^ j) = j := ilog2_pow j 34 (by omega)
    rw [hil]
    have hjk2 : 2 ^ j ≤ 2 ^ k := Nat.pow_le_pow_right (by norm_num) hjk
    have h1j : 1 ≤ 2 ^ j := Nat.one_le_two_pow
    have hs' : (s + 2 ^ j) % u32 = s + 2 ^ j := Nat.mod_eq_of_lt (by omega)
    rw [hs']
    have hidx : 32 - (32 - j) = j := by omega
    by_cases hcase : s + 2 ^ j ≤ e
    · obtain ⟨cs', hcs', hgood', hcov'⟩ := ih (s + 2 ^ j) e (by omega) (by omega) hetop (by omega)
      rw [hcs']
      simp only [Option.map_some']
      by_cases hj0 : j = 0
      · rw [if_pos (by omega)]
        refine ⟨_, rfl, ?_, ?_⟩
        · intro c hc
          rcases List.mem_cons.mp hc with h | h
          · subst h; exact ⟨le_refl s, hse⟩
          · exact goodCidr4_mono (by omega) c (hgood' c h)
        · intro n hn1 hn2
          by_cases hns : n < s + 2 ^ j
          · refine ⟨Cidr.single s, List.mem_cons_self _ _, ?_⟩
            subst hj0
            simp only [inCidr4]
            simp at hns
            omega
          · obtain ⟨c, hc, hcin⟩ := hcov' n (by omega) hn2
            exact ⟨c, List.mem_cons_of_mem _ hc, hcin⟩
      · rw [if_neg (by omega)]
        refine ⟨_, rfl, ?_, ?_⟩
        · intro c hc
          rcases List.mem_cons.mp hc with h | h
          · subst h
            refine ⟨by omega, ?_, le_refl s, ?_⟩
            · rw [hidx]; exact hsmod
            · rw [hidx]; omega
          · exact goodCidr4_mono (by omega) c (hgood' c h)
        · intro n hn1 hn2
          by_cases hns : n < s + 2 ^ j
          · refine ⟨Cidr.block s (32 - j), List.mem_cons_self _ _, ?_⟩
            simp only [inCidr4]
            rw [hidx]
            omega
          · obtain ⟨c, hc, hcin⟩ := hcov' n (by omega) hn2
            exact ⟨c, List.mem_cons_of_mem _ hc, hcin⟩
    · rw [rangeToExact_empty fuel (s + 2 ^ j) e (by omega) (by omega)]
      simp only [Option.map_some']
      by_cases hj0 : j = 0
      · rw [if_pos (by omega)]
        refine ⟨_, rfl, ?_, ?_⟩
        · intro c hc
          rcases List.mem_cons.mp hc with h | h
          · subst h; exact ⟨le_refl s, hse⟩
          · simp at h
        · intro n hn1 hn2
          refine ⟨Cidr.single s, List.mem_cons_self _ _, ?_⟩
          subst hj0
          simp only [inCidr4]
          simp at hcase
          omega
      · rw [if_neg (by omega)]
        refine ⟨_, rfl, ?_, ?_⟩
        · intro c hc
          rcases List.mem_cons.mp hc with h | h
          · subst h
            refine ⟨by omega, ?_, le_refl s, ?_⟩
            · rw [hidx]; exact hsmod
            · rw [hidx]; omega
          · simp at h
        · intro n hn1 hn2
          refine ⟨Cidr.block s (32 - j), List.mem_cons_self _ _, ?_⟩
          simp only [inCidr4]
          rw [hidx]
          omega

theorem goodCidr4_sound {s e n : Nat} {c : Cidr} (hg : goodCidr4 s e c)
    (hin : inCidr4 n c) : s ≤ n ∧ n ≤ e := by
  cases c with
  | single a => simp only [goodCidr4] at hg; simp only [inCidr4] at hin; omega
  | block b p => simp only [goodCidr4] at hg; simp only [inCidr4] at hin; omega

theorem goodCidr4_blocks {s e R : Nat} (hlen : e + 1 - s ≤ R) (hetop : e ≤ u32 - 2)
    {cs : List Cidr} (h : ∀ c ∈ cs, goodCidr4 s e c) : goodBlock4 R cs := by
  intro b p hbp
  have hg := h _ hbp
  simp only [goodCidr4] at hg
  have hu : u32 = 4294967296 := rfl
  exact ⟨hg.1, hg.2.1, by omega, by omega⟩

theorem mergeAux_cover (R fuel : Nat) (hR : R ≤ 2 ^ 31 - 1) (hfuel : R < fuel) :
    ∀ l s e, s ≤ e →
      (∀ x ∈ l, e < x) →
      l.Pairwise (· < ·) →
      (∀ x ∈ l, x ≤ u32 - 2) →
      e ≤ u32 - 2 →
      (∀ b, ¬ (∀ j, j ≤ R → (s ≤ b + j ∧ b + j ≤ e) ∨ (b + j) ∈ l)) →
      ∃ cs, mergeAux fuel l s e = some cs ∧
        (∀ c ∈ cs, ∀ n, inCidr4 n c → (s ≤ n ∧ n ≤ e) ∨ n ∈ l) ∧
        (∀ n, (s ≤ n ∧ n ≤ e) ∨ n ∈ l → ∃ c ∈ cs, inCidr4 n c) ∧
        goodBlock4 R cs := by
  intro l
  induction l with
  | nil =>
    intro s e hse _ _ _ hetop hrun
    have hlen : e + 1 - s ≤ R := by
      by_contra hc
      push_neg at hc
      exact hrun s (fun j hj => Or.inl ⟨by omega, by omega⟩)
    obtain ⟨cs, hcs, hgood, hcov⟩ := rangeToExact_cover fuel s e hse (by omega) hetop (by omega)
    rw [mergeAux, hcs]
    refine ⟨cs, rfl, ?_, ?_, goodCidr4_blocks hlen hetop hgood⟩
    · intro c hc n hin
      exact Or.inl (goodCidr4_sound (hgood c hc) hin)
    · intro n hn
      rcases hn with ⟨h1, h2⟩ | h
      · exact hcov n h1 h2
      · simp at h
  | cons x xs ih =>
    intro s e hse hgt hpair hbound hetop hrun
    have hu : u32 = 4294967296 := rfl
    have hxtop : x ≤ u32 - 2 := hbound x (List.mem_cons_self _ _)
    have hex : (e + 1) % u32 = e + 1 := Nat.mod_eq_of_lt (by omega)
    rw [List.pairwise_cons] at hpair
    rw [mergeAux]
    by_cases hx : x = (e + 1) % u32
    · rw [if_pos hx]
      rw [hex] at hx
      obtain ⟨cs, hcs, hsound, hcov, hblk⟩ := ih s x (by omega)
        (fun y hy => by have := hpair.1 y hy; omega)
        hpair.2
        (fun y hy => hbound y (List.mem_cons_of_mem _ hy))
        hxtop
        (by
          intro b hall
          apply hrun b
          intro j hj
          rcases hall j hj with ⟨h1, h2⟩ | h
          · by_cases hbe : b + j ≤ e
            · exact Or.inl ⟨h1, hbe⟩
            · have : b + j = x := by omega
              exact Or.inr (this ▸ List.mem_cons_self _ _)
          · exact Or.inr (List.mem_cons_of_mem _ h))
      refine ⟨cs, hcs, ?_, ?_, hblk⟩
      · intro c hc n hin
        rcases hsound c hc n hin with ⟨h1, h2⟩ | h
        · by_cases hbe : n ≤ e
          · exact Or.inl ⟨h1, hbe⟩
          · have : n = x := by omega
            exact Or.inr (this ▸ List.mem_cons_self _ _)
        · exact Or.inr (List.mem_cons_of_mem _ h)
      · intro n hn
        apply hcov n
        rcases hn with ⟨h1, h2⟩ | h
        · exact Or.inl ⟨h1, by omega⟩
        · rcases List.mem_cons.mp h with h | h
          · exact Or.inl (by omega)
          · exact Or.inr h
    · rw [if_neg hx]
      have hlen : e + 1 - s ≤ R := by
        by_contra hc
        push_neg at hc
        exact hrun s (fun j hj => Or.inl ⟨by omega, by omega⟩)
      obtain ⟨cs1, hcs1, hgood1, hcov1⟩ :=
        rangeToExact_cover fuel s e hse (by omega) hetop (by omega)
      rw [hcs1]
      simp only [Option.some_bind]
      obtain ⟨cs2, hcs2, hsound2, hcov2, hblk2⟩ := ih x x (le_refl x)
        (fun y hy => hpair.1 y hy)
        hpair.2
        (fun y hy => hbound y (List.mem_cons_of_mem _ hy))
        hxtop
        (by
          intro b hall
          apply hrun b
          intro j hj
          rcases hall j hj with ⟨h1, h2⟩ | h
          · have : b + j = x := by omega
            exact Or.inr (this ▸ List.mem_cons_self _ _)
          · exact Or.inr (List.mem_cons_of_mem _ h))
      rw [hcs2]
      simp only [Option.map_some']
      refine ⟨cs1 ++ cs2, rfl, ?_, ?_, ?_⟩
      · intro c hc n hin
        rcases List.mem_append.mp hc with h | h
        · exact Or.inl (goodCidr4_sound (hgood1 c h) hin)
        · rcases hsound2 c h n hin with ⟨h1, h2⟩ | h'
          · have : n = x := by omega
            exact Or.inr (this ▸ List.mem_cons_self _ _)
          · exact Or.inr (List.mem_cons_of_mem _ h')
      · intro n hn
        rcases hn with ⟨h1, h2⟩ | h
        · obtain ⟨c, hc, hin⟩ := hcov1 n h1 h2
          exact ⟨c, List.mem_append_left _ hc, hin⟩
        · rcases List.mem_cons.mp h with h | h
          · obtain ⟨c, hc, hin⟩ := hcov2 n (Or.inl (by omega))
            exact ⟨c, List.mem_append_right _ hc, hin⟩
          · obtain ⟨c, hc, hin⟩ := hcov2 n (Or.inr h)
            exact ⟨c, List.mem_append_right _ hc, hin⟩
      · intro b p hbp
        rcases List.mem_append.mp hbp with h | h
        · exact goodCidr4_blocks hlen hetop hgood1 b p h
        · exact hblk2 b p h

theorem mergeContiguous_cover (R fuel : Nat) (hR : R ≤ 2 ^ 31 - 1) (hfuel : R < fuel)
    (l : List Nat) (hpair : l.Pairwise (· < ·)) (hbound : ∀ x ∈ l, x ≤ u32 - 2)
    (hrun : ∀ b, ¬ (∀ j, j ≤ R → (b + j) ∈ l)) :
    ∃ cs, mergeContiguousRanges fuel l = some cs ∧
      (∀ c ∈ cs, ∀ n, inCidr4 n c → n ∈ l) ∧
      (∀ n ∈ l, ∃ c ∈ cs, inCidr4 n c) ∧
      goodBlock4 R cs := by
  cases l with
  | nil =>
    refine ⟨[], rfl, ?_, ?_, ?_⟩
    · intro c hc; simp at hc
    · intro n hn; simp at hn
    · intro b p hbp; simp at hbp
  | cons x xs =>
    rw [List.pairwise_cons] at hpair
    rw [mergeContiguousRanges]
    obtain ⟨cs, hcs, hsound, hcov, hblk⟩ := mergeAux_cover R fuel hR hfuel xs x x (le_refl x)
      (fun y hy => hpair.1 y hy)
      hpair.2
      (fun y hy => hbound y (List.mem_cons_of_mem _ hy))
      (hbound x (List.mem_cons_self _ _))
      (by
        intro b hall
        apply hrun b
        intro j hj
        rcases hall j hj with ⟨h1, h2⟩ | h
        · have : b + j = x := by omega
          exact this ▸ List.mem_cons_self _ _
        · exact List.mem_cons_of_mem _ h)
    refine ⟨cs, hcs, ?_, ?_, hblk⟩
    · intro c hc n hin
      rcases hsound c hc n hin with ⟨h1, h2⟩ | h
      · have : n = x := by omega
        exact this ▸ List.mem_cons_self _ _
      · exact List.mem_cons_of_mem _ h
    · intro n hn
      rcases List.mem_cons.mp hn with h | h
      · exact hcov n (Or.inl (by omega))
      · exact hcov n (Or.inr h)

theorem aggregateIPv4_cover (R fuel : Nat) (hR : R ≤ 2 ^ 31 - 1) (hfuel : R < fuel)
    (ips : List Nat) (hbound : ∀ a ∈ ips, a ≤ u32 - 2)
    (hrun : ∀ b, ¬ (∀ j, j ≤ R → (b + j) ∈ ips)) :
    ∃ cs, aggregateIPv4 fuel ips = some cs ∧
      (∀ c ∈ cs, ∀ n, inCidr4 n c → n ∈ ips) ∧
      (∀ n ∈ ips, ∃ c ∈ cs, inCidr4 n c) ∧
      goodBlock4 R cs := by
  by_cases hnil : ips = []
  · subst hnil
    refine ⟨[], by rw [aggregateIPv4]; simp, ?_, ?_, ?_⟩
    · intro c hc; simp at hc
    · intro n hn; simp at hn
    · intro b p hbp; simp at hbp
  · rw [aggregateIPv4, if_neg hnil]
    have hmem : ∀ n, n ∈ List.insertionSort (· ≤ ·) ips.dedup ↔ n ∈ ips := by
      intro n
      rw [(List.perm_insertionSort (· ≤ ·) ips.dedup).mem_iff, List.mem_dedup]
    have hsorted : (List.insertionSort (· ≤ ·) ips.dedup).Pairwise (· ≤ ·) :=
      List.sorted_insertionSort (· ≤ ·) ips.dedup
    have hnodup : (List.insertionSort (· ≤ ·) ips.dedup).Nodup :=
      ((List.perm_insertionSort (· ≤ ·) ips.dedup).nodup_iff).mpr (List.nodup_dedup ips)
    have hpair : (List.insertionSort (· ≤ ·) ips.dedup).Pairwise (· < ·) :=
      (hsorted.and hnodup).imp (fun h => lt_of_le_of_ne h.1 h.2)
    obtain ⟨cs, hcs, hsound, hcov, hblk⟩ := mergeContiguous_cover R fuel hR hfuel
      (List.insertionSort (· ≤ ·) ips.dedup)
      hpair
      (fun x hx => hbound x ((hmem x).mp hx))
      (by
        intro b hall
        apply hrun b
        intro j hj
        exact (hmem (b + j)).mp (hall j hj))
    refine ⟨cs, hcs, ?_, ?_, hblk⟩
    · intro c hc n hin
      exact (hmem n).mp (hsound c hc n hin)
    · intro n hn
      exact hcov n ((hmem n).mpr hn)

theorem mem_foldl_append {α β : Type} (g : α → List β) :
    ∀ (l : List α) (init : List β) (c : β),
      (c ∈ l.foldl (fun acc x => acc ++ g x) init ↔ c ∈ init ∨ ∃ x ∈ l, c ∈ g x) := by
  intro l
  induction l with
  | nil => intro init c; simp
  | cons y ys ih =>
    intro init c
    rw [List.foldl_cons, ih]
    simp only [List.mem_append, List.mem_cons]
    constructor
    · rintro ((h | h) | ⟨x, hx, hc⟩)
      · exact Or.inl h
      · exact Or.inr ⟨y, Or.inl rfl, h⟩
      · exact Or.inr ⟨x, Or.inr hx, hc⟩
    · rintro (h | ⟨x, hx | hx, hc⟩)
      · exact Or.inl (Or.inl h)
      · subst hx; exact Or.inl (Or.inr hc)
      · exact Or.inr ⟨x, hx, hc⟩

theorem mem_expandCIDRv4 {b p n : Nat} (hsize : 2 ^ (32 - p) ≤ 65536)
    (hal : b % 2 ^ (32 - p) = 0) (htop : b + 2 ^ (32 - p) ≤ u32) :
    n ∈ expandCIDRv4 b p ↔ (b ≤ n ∧ n < b + 2 ^ (32 - p)) := by
  have hu : u32 = 4294967296 := rfl
  have hm : 2 ^ (32 - p) % u32 = 2 ^ (32 - p) := Nat.mod_eq_of_lt (by omega)
  rw [expandCIDRv4, hm, if_neg (by omega)]
  have hmask : b / 2 ^ (32 - p) * 2 ^ (32 - p) = b :=
    Nat.div_mul_cancel (Nat.dvd_of_mod_eq_zero hal)
  simp only [hmask, List.mem_map, List.mem_range]
  constructor
  · rintro ⟨i, hi, rfl⟩
    rw [Nat.mod_eq_of_lt (show b + i < u32 by omega)]
    omega
  · rintro ⟨h1, h2⟩
    refine ⟨n - b, by omega, ?_⟩
    rw [show b + (n - b) = n from by omega]
    exact Nat.mod_eq_of_lt (by omega)

theorem aggregateIPv4WithConfig_cover (R fuel : Nat) (hR : R ≤ 65536) (hfuel : R < fuel)
    (ips : List Nat) (cfg : AggregationConfig)
    (hbound : ∀ a ∈ ips, a ≤ u32 - 2)
    (hrun : ∀ b, ¬ (∀ j, j ≤ R → (b + j) ∈ ips)) :
    ∃ out, aggregateIPv4WithConfig fuel ips cfg = some out ∧
      (∀ n, (∃ c ∈ out, inCidr4 n c) ↔ n ∈ ips) ∧
      goodBlock4 R out := by
  by_cases hnil : ips = []
  · subst hnil
    refine ⟨[], by rw [aggregateIPv4WithConfig]; simp, ?_, ?_⟩
    · intro n
      simp
    · intro b p hbp; simp at hbp
  · rw [aggregateIPv4WithConfig, if_neg hnil]
    have hmemf : ∀ n, n ∈ ips.filter (fun a => decide (a ∉ cfg.preserve4)) ↔
        n ∈ ips ∧ n ∉ cfg.preserve4 := by
      intro n; simp [List.mem_filter]
    have hmemp : ∀ n, n ∈ ips.filter (fun a => decide (a ∈ cfg.preserve4)) ↔
        n ∈ ips ∧ n ∈ cfg.preserve4 := by
      intro n; simp [List.mem_filter]
    obtain ⟨cs, hcs, hsound, hcov, hblk⟩ := aggregateIPv4_cover R fuel (by omega) hfuel
      (ips.filter (fun a => decide (a ∉ cfg.preserve4)))
      (fun a ha => hbound a ((hmemf a).mp ha).1)
      (by
        intro b hall
        apply hrun b
        intro j hj
        exact ((hmemf (b + j)).mp (hall j hj)).1)
    rw [hcs]
    simp only [Option.map_some']
    refine ⟨_, rfl, ?_, ?_⟩
    · intro n
      constructor
      · rintro ⟨c, hc, hin⟩
        rcases List.mem_append.mp hc with hA | hBC
        · obtain ⟨c0, hc0, hk⟩ := List.mem_filterMap.mp hA
          cases c0 with
          | single a => simp [keepStep4] at hk
          | block b p =>
            by_cases hkeep : cfg.v4MaxPfx ≤ (p : Int)
            · simp only [keepStep4, if_pos hkeep, Option.some.injEq] at hk
              subst hk
              exact ((hmemf n).mp (hsound _ hc0 n hin)).1
            · simp [keepStep4, if_neg hkeep] at hk
        · rcases List.mem_append.mp hBC with hB | hC
          · obtain ⟨m, hm, rfl⟩ := List.mem_map.mp hB
            simp only [inCidr4] at hin
            rw [hin]
            exact ((hmemp m).mp hm).1
          · obtain ⟨x, hx, hcx⟩ := ((mem_foldl_append (cfgStep4 cfg) cs [] c).mp hC).resolve_left
              (by simp)
            cases x with
            | single a =>
              simp only [cfgStep4, List.mem_singleton] at hcx
              subst hcx
              simp only [inCidr4] at hin
              subst hin
              exact ((hmemf _).mp (hsound _ hx _ (by simp [inCidr4]))).1
            | block b p =>
              by_cases hkeep : cfg.v4MaxPfx ≤ (p : Int)
              · simp [cfgStep4, if_pos hkeep] at hcx
              · simp only [cfgStep4, if_neg hkeep] at hcx
                obtain ⟨m, hm, rfl⟩ := List.mem_map.mp hcx
                simp only [inCidr4] at hin
                rw [hin]
                obtain ⟨hp31, hal, hsz, htop⟩ := hblk b p hx
                have hbm := (mem_expandCIDRv4 (by omega) hal htop).mp hm
                exact ((hmemf m).mp (hsound _ hx m (by simp only [inCidr4]; omega))).1
      · intro hn
        by_cases hp : n ∈ cfg.preserve4
        · refine ⟨Cidr.single n, ?_, by simp [inCidr4]⟩
          apply List.mem_append_right
          apply List.mem_append_left
          exact List.mem_map.mpr ⟨n, (hmemp n).mpr ⟨hn, hp⟩, rfl⟩
        · obtain ⟨c0, hc0, hin⟩ := hcov n ((hmemf n).mpr ⟨hn, hp⟩)
          cases c0 with
          | single a =>
            refine ⟨Cidr.single a, ?_, hin⟩
            apply List.mem_append_right
            apply List.mem_append_right
            exact (mem_foldl_append (cfgStep4 cfg) cs [] _).mpr
              (Or.inr ⟨Cidr.single a, hc0, by simp [cfgStep4]⟩)
          | block b p =>
            by_cases hkeep : cfg.v4MaxPfx ≤ (p : Int)
            · refine ⟨Cidr.block b p, ?_, hin⟩
              apply List.mem_append_left
              exact List.mem_filterMap.mpr ⟨Cidr.block b p, hc0,
                by simp [keepStep4, if_pos hkeep]⟩
            · obtain ⟨hp31, hal, hsz, htop⟩ := hblk b p hc0
              simp only [inCidr4] at hin
              refine ⟨Cidr.single n, ?_, by simp [inCidr4]⟩
              apply List.mem_append_right
              apply List.mem_append_right
              refine (mem_foldl_append (cfgStep4 cfg) cs [] _).mpr (Or.inr ⟨Cidr.block b p, hc0, ?_⟩)
              simp only [cfgStep4, if_neg hkeep]
              exact List.mem_map.mpr ⟨n, (mem_expandCIDRv4 (by omega) hal htop).mpr hin, rfl⟩
    · intro b p hbp
      rcases List.mem_append.mp hbp with hA | hBC
      · obtain ⟨c0, hc0, hk⟩ := List.mem_filterMap.mp hA
        cases c0 with
        | single a => simp [keepStep4] at hk
        | block b' p' =>
          by_cases hkeep : cfg.v4MaxPfx ≤ (p' : Int)
          · simp only [keepStep4, if_pos hkeep, Option.some.injEq] at hk
            cases hk
            exact hblk b p hc0
          · simp [keepStep4, if_neg hkeep] at hk
      · rcases List.mem_append.mp hBC with hB | hC
        · obtain ⟨m, _, hEq⟩ := List.mem_map.mp hB
          simp at hEq
        · obtain ⟨x, hx, hcx⟩ := ((mem_foldl_append (cfgStep4 cfg) cs [] _).mp hC).resolve_left
            (by simp)
          cases x with
          | single a => simp [cfgStep4] at hcx
          | block b' p' =>
            by_cases hkeep : cfg.v4MaxPfx ≤ (p' : Int)
            · simp [cfgStep4, if_pos hkeep] at hcx
            · simp only [cfgStep4, if_neg hkeep] at hcx
              obtain ⟨m, _, hEq⟩ := List.mem_map.mp hcx
              simp at hEq

theorem goodCidr6_mono {s s' e : Nat} (h : s ≤ s') :
    ∀ c, goodCidr6 s' e c → goodCidr6 s e c := by
  intro c hc
  cases c with
  | single a => simp only [goodCidr6] at *; omega
  | block b p => simp only [goodCidr6] at *; omega

theorem goodCidr6_sound {s e n : Nat} {c : Cidr} (hg : goodCidr6 s e c)
    (hin : inCidr6 n c) : s ≤ n ∧ n ≤ e := by
  cases c with
  | single a => simp only [goodCidr6] at hg; simp only [inCidr6] at hin; omega
  | block b p => simp only [goodCidr6] at hg; simp only [inCidr6] at hin; omega

theorem goodCidr6_blocks {s e R : Nat} (hlen : e + 1 - s ≤ R) (hetop : e ≤ 2 ^ 128 - 1)
    {cs : List Cidr} (h : ∀ c ∈ cs, goodCidr6 s e c) : goodBlock6 R cs := by
  intro b p hbp
  have hg := h _ hbp
  simp only [goodCidr6] at hg
  exact ⟨hg.1, hg.2.1, by omega, by omega⟩

theorem rangeToExact6_empty : ∀ fuel s e, 0 < fuel → e < s →
    ipv6RangeToExactCIDRs fuel s e = some [] := by
  intro fuel s e hf he
  match fuel, hf with
  | fuel + 1, _ =>
    rw [ipv6RangeToExactCIDRs, if_neg (by omega)]

theorem rangeToExact6_cover : ∀ fuel s e, s ≤ e → e ≤ 2 ^ 128 - 1 →
    e + 2 - s ≤ fuel →
    ∃ cs, ipv6RangeToExactCIDRs fuel s e = some cs ∧
      (∀ c ∈ cs, goodCidr6 s e c) ∧
      (∀ n, s ≤ n → n ≤ e → ∃ c ∈ cs, inCidr6 n c) := by
  intro fuel
  induction fuel with
  | zero => intro s e hse _ hfuel; omega
  | succ fuel ih =>
    intro s e hse hetop hfuel
    rw [ipv6RangeToExactCIDRs, if_pos hse]
    obtain ⟨k, hk, hk1, hk2⟩ : ∃ k, v6PowLoop (e - s + 1) 130 1 = some (2 ^ k) ∧
        2 ^ k ≤ e - s + 1 ∧ e - s + 1 < 2 ^ (k + 1) := by
      have h := v6PowLoop_sound (e - s + 1) 129 0 (by simp)
        (by
          have h128 : e - s + 1 ≤ 2 ^ 128 := by omega
          have : (2 : Nat) ^ 128 < 2 ^ (0 + 129 + 1) := by norm_num
          omega)
      simpa using h
    rw [hk]
    simp only [Option.some_bind]
    have hk128 : k ≤ 128 := by
      by_contra hc
      push_neg at hc
      have h1 : 2 ^ 129 ≤ 2 ^ k := Nat.pow_le_pow_right (by norm_num) (by omega)
      have h2 : (2 : Nat) ^ 128 < 2 ^ 129 := by norm_num
      omega
    obtain ⟨j, hjk, halign, hsmod⟩ := alignLoop_spec k 130 s (by omega)
    rw [halign]
    have hil : ilog2 130 (2 ^ j) = j := ilog2_pow j 130 (by omega)
    rw [hil]
    have hjk2 : 2 ^ j ≤ 2 ^ k := Nat.pow_le_pow_right (by norm_num) hjk
    have h1j : 1 ≤ 2 ^ j := Nat.one_le_two_pow
    have hidx : 128 - (128 - j) = j := by omega
    by_cases hcase : s + 2 ^ j ≤ e
    · obtain ⟨cs', hcs', hgood', hcov'⟩ := ih (s + 2 ^ j) e (by omega) hetop (by omega)
      rw [hcs']
      simp only [Option.map_some']
      by_cases hj0 : j = 0
      · rw [if_pos (by omega)]
        refine ⟨_, rfl, ?_, ?_⟩
        · intro c hc
          rcases List.mem_cons.mp hc with h | h
          · subst h; exact ⟨le_refl s, hse⟩
          · exact goodCidr6_mono (by omega) c (hgood' c h)
        · intro n hn1 hn2
          by_cases hns : n < s + 2 ^ j
          · refine ⟨Cidr.single s, List.mem_cons_self _ _, ?_⟩
            subst hj0
            simp only [inCidr6]
            simp at hns
            omega
          · obtain ⟨c, hc, hcin⟩ := hcov' n (by omega) hn2
            exact ⟨c, List.mem_cons_of_mem _ hc, hcin⟩
      · rw [if_neg (by omega)]
        refine ⟨_, rfl, ?_, ?_⟩
        · intro c hc
          rcases List.mem_cons.mp hc with h | h
          · subst h
            refine ⟨by omega, ?_, le_refl s, ?_⟩
            · rw [hidx]; exact hsmod
            · rw [hidx]; omega
          · exact goodCidr6_mono (by omega) c (hgood' c h)
        · intro n hn1 hn2
          by_cases hns : n < s + 2 ^ j
          · refine ⟨Cidr.block s (128 - j), List.mem_cons_self _ _, ?_⟩
            simp only [inCidr6]
            rw [hidx]
            omega
          · obtain ⟨c, hc, hcin⟩ := hcov' n (by omega) hn2
            exact ⟨c, List.mem_cons_of_mem _ hc, hcin⟩
    · rw [rangeToExact6_empty fuel (s + 2 ^ j) e (by omega) (by omega)]
      simp only [Option.map_some']
      by_cases hj0 : j = 0
      · rw [if_pos (by omega)]
        refine ⟨_, rfl, ?_, ?_⟩
        · intro c hc
          rcases List.mem_cons.mp hc with h | h
          · subst h; exact ⟨le_refl s, hse⟩
          · simp at h
        · intro n hn1 hn2
          refine ⟨Cidr.single s, List.mem_cons_self _ _, ?_⟩
          subst hj0
          simp only [inCidr6]
          simp at hcase
          omega
      · rw [if_neg (by omega)]
        refine ⟨_, rfl, ?_, ?_⟩
        · intro c hc
          rcases List.mem_cons.mp hc with h | h
          · subst h
            refine ⟨by omega, ?_, le_refl s, ?_⟩
            · rw [hidx]; exact hsmod
            · rw [hidx]; omega
          · simp at h
        · intro n hn1 hn2
          refine ⟨Cidr.block s (128 - j), List.mem_cons_self _ _, ?_⟩
          simp only [inCidr6]
          rw [hidx]
          omega

theorem mergeAux6_cover (R fuel : Nat) (hfuel : R < fuel) :
    ∀ l s e, s ≤ e →
      (∀ x ∈ l, e < x) →
      l.Pairwise (· < ·) →
      (∀ x ∈ l, x ≤ 2 ^ 128 - 1) →
      e ≤ 2 ^ 128 - 1 →
      (∀ b, ¬ (∀ j, j ≤ R → (s ≤ b + j ∧ b + j ≤ e) ∨ (b + j) ∈ l)) →
      ∃ cs, mergeAux6 fuel l s e = some cs ∧
        (∀ c ∈ cs, ∀ n, inCidr6 n c → (s ≤ n ∧ n ≤ e) ∨ n ∈ l) ∧
        (∀ n, (s ≤ n ∧ n ≤ e) ∨ n ∈ l → ∃ c ∈ cs, inCidr6 n c) ∧
        goodBlock6 R cs := by
  intro l
  induction l with
  | nil =>
    intro s e hse _ _ _ hetop hrun
    have hlen : e + 1 - s ≤ R := by
      by_contra hc
      push_neg at hc
      exact hrun s (fun j hj => Or.inl ⟨by omega, by omega⟩)
    obtain ⟨cs, hcs, hgood, hcov⟩ := rangeToExact6_cover fuel s e hse hetop (by omega)
    rw [mergeAux6, hcs]
    refine ⟨cs, rfl, ?_, ?_, goodCidr6_blocks hlen hetop hgood⟩
    · intro c hc n hin
      exact Or.inl (goodCidr6_sound (hgood c hc) hin)
    · intro n hn
      rcases hn with ⟨h1, h2⟩ | h
      · exact hcov n h1 h2
      · simp at h
  | cons x xs ih =>
    intro s e hse hgt hpair hbound hetop hrun
    have hxtop : x ≤ 2 ^ 128 - 1 := hbound x (List.mem_cons_self _ _)
    rw [List.pairwise_cons] at hpair
    rw [mergeAux6]
    by_cases hx : x = e + 1
    · rw [if_pos hx]
      obtain ⟨cs, hcs, hsound, hcov, hblk⟩ := ih s x (by omega)
        (fun y hy => by have := hpair.1 y hy; omega)
        hpair.2
        (fun y hy => hbound y (List.mem_cons_of_mem _ hy))
        hxtop
        (by
          intro b hall
          apply hrun b
          intro j hj
          rcases hall j hj with ⟨h1, h2⟩ | h
          · by_cases hbe : b + j ≤ e
            · exact Or.inl ⟨h1, hbe⟩
            · have : b + j = x := by omega
              exact Or.inr (this ▸ List.mem_cons_self _ _)
          · exact Or.inr (List.mem_cons_of_mem _ h))
      refine ⟨cs, hcs, ?_, ?_, hblk⟩
      · intro c hc n hin
        rcases hsound c hc n hin with ⟨h1, h2⟩ | h
        · by_cases hbe : n ≤ e
          · exact Or.inl ⟨h1, hbe⟩
          · have : n = x := by omega
            exact Or.inr (this ▸ List.mem_cons_self _ _)
        · exact Or.inr (List.mem_cons_of_mem _ h)
      · intro n hn
        apply hcov n
        rcases hn with ⟨h1, h2⟩ | h
        · exact Or.inl ⟨h1, by omega⟩
        · rcases List.mem_cons.mp h with h | h
          · exact Or.inl (by omega)
          · exact Or.inr h
    · rw [if_neg hx]
      have hlen : e + 1 - s ≤ R := by
        by_contra hc
        push_neg at hc
        exact hrun s (fun j hj => Or.inl ⟨by omega, by omega⟩)
      obtain ⟨cs1, hcs1, hgood1, hcov1⟩ :=
        rangeToExact6_cover fuel s e hse hetop (by omega)
      rw [hcs1]
      simp only [Option.some_bind]
      obtain ⟨cs2, hcs2, hsound2, hcov2, hblk2⟩ := ih x x (le_refl x)
        (fun y hy => hpair.1 y hy)
        hpair.2
        (fun y hy => hbound y (List.mem_cons_of_mem _ hy))
        hxtop
        (by
          intro b hall
          apply hrun b
          intro j hj
          rcases hall j hj with ⟨h1, h2⟩ | h
          · have : b + j = x := by omega
            exact Or.inr (this ▸ List.mem_cons_self _ _)
          · exact Or.inr (List.mem_cons_of_mem _ h))
      rw [hcs2]
      simp only [Option.map_some']
      refine ⟨cs1 ++ cs2, rfl, ?_, ?_, ?_⟩
      · intro c hc n hin
        rcases List.mem_append.mp hc with h | h
        · exact Or.inl (goodCidr6_sound (hgood1 c h) hin)
        · rcases hsound2 c h n hin with ⟨h1, h2⟩ | h'
          · have : n = x := by omega
            exact Or.inr (this ▸ List.mem_cons_self _ _)
          · exact Or.inr (List.mem_cons_of_mem _ h')
      · intro n hn
        rcases hn with ⟨h1, h2⟩ | h
        · obtain ⟨c, hc, hin⟩ := hcov1 n h1 h2
          exact ⟨c, List.mem_append_left _ hc, hin⟩
        · rcases List.mem_cons.mp h with h | h
          · obtain ⟨c, hc, hin⟩ := hcov2 n (Or.inl (by omega))
            exact ⟨c, List.mem_append_right _ hc, hin⟩
          · obtain ⟨c, hc, hin⟩ := hcov2 n (Or.inr h)
            exact ⟨c, List.mem_append_right _ hc, hin⟩
      · intro b p hbp
        rcases List.mem_append.mp hbp with h | h
        · exact goodCidr6_blocks hlen hetop hgood1 b p h
        · exact hblk2 b p h

theorem mergeContiguous6_cover (R fuel : Nat) (hfuel : R < fuel)
    (l : List Nat) (hpair : l.Pairwise (· < ·)) (hbound : ∀ x ∈ l, x ≤ 2 ^ 128 - 1)
    (hrun : ∀ b, ¬ (∀ j, j ≤ R → (b + j) ∈ l)) :
    ∃ cs, mergeContiguousIPv6Ranges fuel l = some cs ∧
      (∀ c ∈ cs, ∀ n, inCidr6 n c → n ∈ l) ∧
      (∀ n ∈ l, ∃ c ∈ cs, inCidr6 n c) ∧
      goodBlock6 R cs := by
  cases l with
  | nil =>
    refine ⟨[], rfl, ?_, ?_, ?_⟩
    · intro c hc; simp at hc
    · intro n hn; simp at hn
    · intro b p hbp; simp at hbp
  | cons x xs =>
    rw [List.pairwise_cons] at hpair
    rw [mergeContiguousIPv6Ranges]
    obtain ⟨cs, hcs, hsound, hcov, hblk⟩ := mergeAux6_cover R fuel hfuel xs x x (le_refl x)
      (fun y hy => hpair.1 y hy)
      hpair.2
      (fun y hy => hbound y (List.mem_cons_of_mem _ hy))
      (hbound x (List.mem_cons_self _ _))
      (by
        intro b hall
        apply hrun b
        intro j hj
        rcases hall j hj with ⟨h1, h2⟩ | h
        · have : b + j = x := by omega
          exact this ▸ List.mem_cons_self _ _
        · exact List.mem_cons_of_mem _ h)
    refine ⟨cs, hcs, ?_, ?_, hblk⟩
    · intro c hc n hin
      rcases hsound c hc n hin with ⟨h1, h2⟩ | h
      · have : n = x := by omega
        exact this ▸ List.mem_cons_self _ _
      · exact List.mem_cons_of_mem _ h
    · intro n hn
      rcases List.mem_cons.mp hn with h | h
      · exact hcov n (Or.inl (by omega))
      · exact hcov n (Or.inr h)

theorem aggregateIPv6_cover (R fuel : Nat) (hfuel : R < fuel)
    (ips : List Nat) (hbound : ∀ a ∈ ips, a ≤ 2 ^ 128 - 1)
    (hrun : ∀ b, ¬ (∀ j, j ≤ R → (b + j) ∈ ips)) :
    ∃ cs, aggregateIPv6 fuel ips = some cs ∧
      (∀ c ∈ cs, ∀ n, inCidr6 n c → n ∈ ips) ∧
      (∀ n ∈ ips, ∃ c ∈ cs, inCidr6 n c) ∧
      goodBlock6 R cs := by
  by_cases hnil : ips = []
  · subst hnil
    refine ⟨[], by rw [aggregateIPv6]; simp, ?_, ?_, ?_⟩
    · intro c hc; simp at hc
    · intro n hn; simp at hn
    · intro b p hbp; simp at hbp
  · rw [aggregateIPv6, if_neg hnil]
    have hmem : ∀ n, n ∈ List.insertionSort (· ≤ ·) ips.dedup ↔ n ∈ ips := by
      intro n
      rw [(List.perm_insertionSort (· ≤ ·) ips.dedup).mem_iff, List.mem_dedup]
    have hsorted : (List.insertionSort (· ≤ ·) ips.dedup).Pairwise (· ≤ ·) :=
      List.sorted_insertionSort (· ≤ ·) ips.dedup
    have hnodup : (List.insertionSort (· ≤ ·) ips.dedup).Nodup :=
      ((List.perm_insertionSort (· ≤ ·) ips.dedup).nodup_iff).mpr (List.nodup_dedup ips)
    have hpair : (List.insertionSort (· ≤ ·) ips.dedup).Pairwise (· < ·) :=
      (hsorted.and hnodup).imp (fun h => lt_of_le_of_ne h.1 h.2)
    obtain ⟨cs, hcs, hsound, hcov, hblk⟩ := mergeContiguous6_cover R fuel hfuel
      (List.insertionSort (· ≤ ·) ips.dedup)
      hpair
      (fun x hx => hbound x ((hmem x).mp hx))
      (by
        intro b hall
        apply hrun b
        intro j hj
        exact (hmem (b + j)).mp (hall j hj))
    refine ⟨cs, hcs, ?_, ?_, hblk⟩
    · intro c hc n hin
      exact (hmem n).mp (hsound c hc n hin)
    · intro n hn
      exact hcov n ((hmem n).mpr hn)

theorem mem_expandCIDRv6 {b p n : Nat} (hp127 : p ≤ 127) (hsize : 2 ^ (128 - p) ≤ 1024)
    (hal : b % 2 ^ (128 - p) = 0) :
    n ∈ expandCIDRv6 b p ↔ (b ≤ n ∧ n < b + 2 ^ (128 - p)) := by
  have hp118 : 118 ≤ p := by
    by_contra hc
    push_neg at hc
    have h11 : (2 : Nat) ^ 11 ≤ 2 ^ (128 - p) := Nat.pow_le_pow_right (by norm_num) (by omega)
    have : (1024 : Nat) < 2 ^ 11 := by norm_num
    omega
  rw [expandCIDRv6, if_neg (by omega), if_neg (by omega)]
  have hmask : b / 2 ^ (128 - p) * 2 ^ (128 - p) = b :=
    Nat.div_mul_cancel (Nat.dvd_of_mod_eq_zero hal)
  simp only [hmask, List.mem_map, List.mem_range]
  constructor
  · rintro ⟨i, hi, rfl⟩
    omega
  · rintro ⟨h1, h2⟩
    exact ⟨n - b, by omega, by omega⟩

theorem aggregateIPv6WithConfig_cover (R fuel : Nat) (hR : R ≤ 1024) (hfuel : R < fuel)
    (ips : List Nat) (cfg : AggregationConfig)
    (hbound : ∀ a ∈ ips, a ≤ 2 ^ 128 - 1)
    (hrun : ∀ b, ¬ (∀ j, j ≤ R → (b + j) ∈ ips)) :
    ∃ out, aggregateIPv6WithConfig fuel ips cfg = some out ∧
      (∀ n, (∃ c ∈ out, inCidr6 n c) ↔ n ∈ ips) ∧
      goodBlock6 R out := by
  by_cases hnil : ips = []
  · subst hnil
    refine ⟨[], by rw [aggregateIPv6WithConfig]; simp, ?_, ?_⟩
    · intro n
      simp
    · intro b p hbp; simp at hbp
  · rw [aggregateIPv6WithConfig, if_neg hnil]
    have hmemf : ∀ n, n ∈ ips.filter (fun a => decide (a ∉ cfg.preserve6)) ↔
        n ∈ ips ∧ n ∉ cfg.preserve6 := by
      intro n; simp [List.mem_filter]
    have hmemp : ∀ n, n ∈ ips.filter (fun a => decide (a ∈ cfg.preserve6)) ↔
        n ∈ ips ∧ n ∈ cfg.preserve6 := by
      intro n; simp [List.mem_filter]
    obtain ⟨cs, hcs, hsound, hcov, hblk⟩ := aggregateIPv6_cover R fuel hfuel
      (ips.filter (fun a => decide (a ∉ cfg.preserve6)))
      (fun a ha => hbound a ((hmemf a).mp ha).1)
      (by
        intro b hall
        apply hrun b
        intro j hj
        exact ((hmemf (b + j)).mp (hall j hj)).1)
    rw [hcs]
    simp only [Option.map_some']
    refine ⟨_, rfl, ?_, ?_⟩
    · intro n
      constructor
      · rintro ⟨c, hc, hin⟩
        rcases List.mem_append.mp hc with hA | hBC
        · obtain ⟨c0, hc0, hk⟩ := List.mem_filterMap.mp hA
          cases c0 with
          | single a => simp [keepStep6] at hk
          | block b p =>
            by_cases hkeep : cfg.v6MaxPfx ≤ (p : Int)
            · simp only [keepStep6, if_pos hkeep, Option.some.injEq] at hk
              subst hk
              exact ((hmemf n).mp (hsound _ hc0 n hin)).1
            · simp [keepStep6, if_neg hkeep] at hk
        · rcases List.mem_append.mp hBC with hB | hC
          · obtain ⟨m, hm, rfl⟩ := List.mem_map.mp hB
            simp only [inCidr6] at hin
            rw [hin]
            exact ((hmemp m).mp hm).1
          · obtain ⟨x, hx, hcx⟩ := ((mem_foldl_append (cfgStep6 cfg) cs [] c).mp hC).resolve_left
              (by simp)
            cases x with
            | single a =>
              simp only [cfgStep6, List.mem_singleton] at hcx
              subst hcx
              simp only [inCidr6] at hin
              subst hin
              exact ((hmemf _).mp (hsound _ hx _ (by simp [inCidr6]))).1
            | block b p =>
              by_cases hkeep : cfg.v6MaxPfx ≤ (p : Int)
              · simp [cfgStep6, if_pos hkeep] at hcx
              · simp only [cfgStep6, if_neg hkeep] at hcx
                obtain ⟨m, hm, rfl⟩ := List.mem_map.mp hcx
                simp only [inCidr6] at hin
                rw [hin]
                obtain ⟨hp127, hal, hsz, htop⟩ := hblk b p hx
                have hbm := (mem_expandCIDRv6 hp127 (by omega) hal).mp hm
                exact ((hmemf m).mp (hsound _ hx m (by simp only [inCidr6]; omega))).1
      · intro hn
        by_cases hp : n ∈ cfg.preserve6
        · refine ⟨Cidr.single n, ?_, by simp [inCidr6]⟩
          apply List.mem_append_right
          apply List.mem_append_left
          exact List.mem_map.mpr ⟨n, (hmemp n).mpr ⟨hn, hp⟩, rfl⟩
        · obtain ⟨c0, hc0, hin⟩ := hcov n ((hmemf n).mpr ⟨hn, hp⟩)
          cases c0 with
          | single a =>
            refine ⟨Cidr.single a, ?_, hin⟩
            apply List.mem_append_right
            apply List.mem_append_right
            exact (mem_foldl_append (cfgStep6 cfg) cs [] _).mpr
              (Or.inr ⟨Cidr.single a, hc0, by simp [cfgStep6]⟩)
          | block b p =>
            by_cases hkeep : cfg.v6MaxPfx ≤ (p : Int)
            · refine ⟨Cidr.block b p, ?_, hin⟩
              apply List.mem_append_left
              exact List.mem_filterMap.mpr ⟨Cidr.block b p, hc0,
                by simp [keepStep6, if_pos hkeep]⟩
            · obtain ⟨hp127, hal, hsz, htop⟩ := hblk b p hc0
              simp only [inCidr6] at hin
              refine ⟨Cidr.single n, ?_, by simp [inCidr6]⟩
              apply List.mem_append_right
              apply List.mem_append_right
              refine (mem_foldl_append (cfgStep6 cfg) cs [] _).mpr (Or.inr ⟨Cidr.block b p, hc0, ?_⟩)
              simp only [cfgStep6, if_neg hkeep]
              exact List.mem_map.mpr ⟨n, (mem_expandCIDRv6 hp127 (by omega) hal).mpr hin, rfl⟩
    · intro b p hbp
      rcases List.mem_append.mp hbp with hA | hBC
      · obtain ⟨c0, hc0, hk⟩ := List.mem_filterMap.mp hA
        cases c0 with
        | single a => simp [keepStep6] at hk
        | block b' p' =>
          by_cases hkeep : cfg.v6MaxPfx ≤ (p' : Int)
          · simp only [keepStep6, if_pos hkeep, Option.some.injEq] at hk
            cases hk
            exact hblk b p hc0
          · simp [keepStep6, if_neg hkeep] at hk
      · rcases List.mem_append.mp hBC with hB | hC
        · obtain ⟨m, _, hEq⟩ := List.mem_map.mp hB
          simp at hEq
        · obtain ⟨x, hx, hcx⟩ := ((mem_foldl_append (cfgStep6 cfg) cs [] _).mp hC).resolve_left
            (by simp)
          cases x with
          | single a => simp [cfgStep6] at hcx
          | block b' p' =>
            by_cases hkeep : cfg.v6MaxPfx ≤ (p' : Int)
            · simp [cfgStep6, if_pos hkeep] at hcx
            · simp only [cfgStep6, if_neg hkeep] at hcx
              obtain ⟨m, _, hEq⟩ := List.mem_map.mp hcx
              simp at hEq

theorem mem_separate4 {ms : List Mech} {a : Nat} : a ∈ separate4 ms ↔ Mech.ip4 a ∈ ms := by
  rw [separate4, List.mem_filterMap]
  constructor
  · rintro ⟨m, hm, hf⟩
    cases m <;> simp_all
  · intro h
    exact ⟨Mech.ip4 a, h, rfl⟩

theorem mem_separate6 {ms : List Mech} {a : Nat} : a ∈ separate6 ms ↔ Mech.ip6 a ∈ ms := by
  rw [separate6, List.mem_filterMap]
  constructor
  · rintro ⟨m, hm, hf⟩
    cases m <;> simp_all
  · intro h
    exact ⟨Mech.ip6 a, h, rfl⟩

theorem mem_existing4_sub {ms : List Mech} {m : Mech} (h : m ∈ existing4 ms) : m ∈ ms :=
  (List.mem_filter.mp h).1

theorem mem_existing4_intro {ms : List Mech} {b p : Nat} (h : Mech.ip4Cidr b p ∈ ms) :
    Mech.ip4Cidr b p ∈ existing4 ms :=
  List.mem_filter.mpr ⟨h, rfl⟩

theorem mem_existing6_sub {ms : List Mech} {m : Mech} (h : m ∈ existing6 ms) : m ∈ ms :=
  (List.mem_filter.mp h).1

theorem mem_existing6_intro {ms : List Mech} {b p : Nat} (h : Mech.ip6Cidr b p ∈ ms) :
    Mech.ip6Cidr b p ∈ existing6 ms :=
  List.mem_filter.mpr ⟨h, rfl⟩

theorem mem_nonIPMechs_sub {ms : List Mech} {m : Mech} (h : m ∈ nonIPMechs ms) : m ∈ ms :=
  (List.mem_filter.mp h).1

theorem outDenote_toOut4 {c : Cidr} {t : Bool × Nat}
    (halign : ∀ b p, c = Cidr.block b p → b % 2 ^ (32 - p) = 0) :
    outDenote (toOut4 c) t ↔ (t.1 = true ∧ inCidr4 t.2 c) := by
  cases c with
  | single a =>
    simp only [toOut4, outDenote, inCidr4, Prod.ext_iff]
  | block b p =>
    have hmask : b / 2 ^ (32 - p) * 2 ^ (32 - p) = b :=
      Nat.div_mul_cancel (Nat.dvd_of_mod_eq_zero (halign b p rfl))
    simp only [toOut4, outDenote, inCidr4, hmask]

theorem outDenote_toOut6 {c : Cidr} {t : Bool × Nat}
    (halign : ∀ b p, c = Cidr.block b p → b % 2 ^ (128 - p) = 0) :
    outDenote (toOut6 c) t ↔ (t.1 = false ∧ inCidr6 t.2 c) := by
  cases c with
  | single a =>
    simp only [toOut6, outDenote, inCidr6, Prod.ext_iff]
  | block b p =>
    have hmask : b / 2 ^ (128 - p) * 2 ^ (128 - p) = b :=
      Nat.div_mul_cancel (Nat.dvd_of_mod_eq_zero (halign b p rfl))
    simp only [toOut6, outDenote, inCidr6, hmask]

/-- C1: for every input list of SPF IP mechanisms and every aggregation
configuration, provided the individual IPv4 host mechanisms are valid
addresses other than 255.255.255.255 with no 65537 consecutive
addresses among them, and the individual IPv6 host mechanisms are valid
addresses with no 1025 consecutive addresses among them, aggregation
terminates and the union of the address sets denoted by the emitted
mechanisms equals the union denoted by the input mechanisms: every
emitted CIDR expands to a subset of the input set and nothing is
dropped.  (Without the run-length bounds the equality fails:
`aggregateCIDRs_drops_block`.) -/
theorem aggregateCIDRs_exact_cover (fuel : Nat) (ms : List Mech) (cfg : AggregationConfig)
    (hfuel : 65537 ≤ fuel)
    (hwf4 : ∀ a, Mech.ip4 a ∈ ms → a < u32 - 1)
    (hwf6 : ∀ a, Mech.ip6 a ∈ ms → a < 2 ^ 128)
    (hrun4 : ∀ b, ¬ (∀ j, j ≤ 65536 → Mech.ip4 (b + j) ∈ ms))
    (hrun6 : ∀ b, ¬ (∀ j, j ≤ 1024 → Mech.ip6 (b + j) ∈ ms)) :
    ∃ out, aggregateCIDRsWithConfig fuel ms cfg = some out ∧
      ∀ t : Bool × Nat, (∃ o ∈ out, outDenote o t) ↔ ∃ m ∈ ms, mechDenote m t := by
  have hu : u32 = 4294967296 := rfl
  by_cases hnil : ms = []
  · subst hnil
    refine ⟨[], by rw [aggregateCIDRsWithConfig]; simp, ?_⟩
    intro t
    simp
  · rw [aggregateCIDRsWithConfig, if_neg hnil]
    obtain ⟨out4, h4, h4iff, hblk4⟩ := aggregateIPv4WithConfig_cover 65536 fuel (le_refl _)
      (by omega) (separate4 ms) cfg
      (fun a ha => by have := hwf4 a (mem_separate4.mp ha); omega)
      (by
        intro b hall
        apply hrun4 b
        intro j hj
        exact mem_separate4.mp (hall j hj))
    obtain ⟨out6, h6, h6iff, hblk6⟩ := aggregateIPv6WithConfig_cover 1024 fuel (le_refl _)
      (by omega) (separate6 ms) cfg
      (fun a ha => by have := hwf6 a (mem_separate6.mp ha); omega)
      (by
        intro b hall
        apply hrun6 b
        intro j hj
        exact mem_separate6.mp (hall j hj))
    rw [h4]
    simp only [Option.some_bind]
    rw [h6]
    simp only [Option.map_some']
    refine ⟨_, rfl, ?_⟩
    intro t
    constructor
    · rintro ⟨o, ho, hd⟩
      simp only [List.mem_append] at ho
      rcases ho with ((((h | h) | h) | h) | h)
      · obtain ⟨c, hc, rfl⟩ := List.mem_map.mp h
        have halign : ∀ b p, c = Cidr.block b p → b % 2 ^ (32 - p) = 0 := by
          intro b p hcb
          exact (hblk4 b p (hcb ▸ hc)).2.1
        obtain ⟨ht1, hin⟩ := (outDenote_toOut4 halign).mp hd
        refine ⟨Mech.ip4 t.2, mem_separate4.mp ((h4iff t.2).mp ⟨c, hc, hin⟩), ?_⟩
        simp only [mechDenote, Prod.ext_iff]
        exact ⟨ht1, trivial⟩
      · obtain ⟨c, hc, rfl⟩ := List.mem_map.mp h
        have halign : ∀ b p, c = Cidr.block b p → b % 2 ^ (128 - p) = 0 := by
          intro b p hcb
          exact (hblk6 b p (hcb ▸ hc)).2.1
        obtain ⟨ht1, hin⟩ := (outDenote_toOut6 halign).mp hd
        refine ⟨Mech.ip6 t.2, mem_separate6.mp ((h6iff t.2).mp ⟨c, hc, hin⟩), ?_⟩
        simp only [mechDenote, Prod.ext_iff]
        exact ⟨ht1, trivial⟩
      · obtain ⟨m, hm, rfl⟩ := List.mem_map.mp h
        exact ⟨m, mem_existing4_sub hm, hd⟩
      · obtain ⟨m, hm, rfl⟩ := List.mem_map.mp h
        exact ⟨m, mem_existing6_sub hm, hd⟩
      · obtain ⟨m, hm, rfl⟩ := List.mem_map.mp h
        exact ⟨m, mem_nonIPMechs_sub hm, hd⟩
    · rintro ⟨m, hm, hd⟩
      cases m with
      | ip4 a =>
        simp only [mechDenote] at hd
        subst hd
        obtain ⟨c, hc, hin⟩ := (h4iff a).mpr (mem_separate4.mpr hm)
        refine ⟨toOut4 c, ?_, ?_⟩
        · simp only [List.mem_append]
          exact Or.inl (Or.inl (Or.inl (Or.inl (List.mem_map.mpr ⟨c, hc, rfl⟩))))
        · refine (outDenote_toOut4 ?_).mpr ⟨rfl, hin⟩
          intro b p hcb
          exact (hblk4 b p (hcb ▸ hc)).2.1
      | ip4Cidr b p =>
        refine ⟨OutMech.passthrough (Mech.ip4Cidr b p), ?_, hd⟩
        simp only [List.mem_append]
        exact Or.inl (Or.inl (Or.inr (List.mem_map.mpr ⟨_, mem_existing4_intro hm, rfl⟩)))
      | ip6 a =>
        simp only [mechDenote] at hd
        subst hd
        obtain ⟨c, hc, hin⟩ := (h6iff a).mpr (mem_separate6.mpr hm)
        refine ⟨toOut6 c, ?_, ?_⟩
        · simp only [List.mem_append]
          exact Or.inl (Or.inl (Or.inl (Or.inr (List.mem_map.mpr ⟨c, hc, rfl⟩))))
        · refine (outDenote_toOut6 ?_).mpr ⟨rfl, hin⟩
          intro b p hcb
          exact (hblk6 b p (hcb ▸ hc)).2.1
      | ip6Cidr b p =>
        refine ⟨OutMech.passthrough (Mech.ip6Cidr b p), ?_, hd⟩
        simp only [List.mem_append]
        exact Or.inl (Or.inr (List.mem_map.mpr ⟨_, mem_existing6_intro hm, rfl⟩))
      | other s =>
        simp only [mechDenote] at hd

theorem no_long_run (R : Nat) (l : List Nat) (hlen : l.length ≤ R) :
    ∀ b, ¬ (∀ j, j ≤ R → (b + j) ∈ l) := by
  intro b hall
  have hsub : ((List.range (R + 1)).map (b + ·)) ⊆ l := by
    intro x hx
    obtain ⟨j, hj, rfl⟩ := List.mem_map.mp hx
    exact hall j (by have := List.mem_range.mp hj; omega)
  have hnodup : ((List.range (R + 1)).map (b + ·)).Nodup :=
    (List.nodup_range _).map (fun x y h => by omega)
  have hle := (List.subperm_of_subset hnodup hsub).length_le
  rw [List.length_map, List.length_range] at hle
  omega

theorem no_long_run_mech4 (R : Nat) (ms : List Mech) (hlen : (separate4 ms).length ≤ R) :
    ∀ b, ¬ (∀ j, j ≤ R → Mech.ip4 (b + j) ∈ ms) := by
  intro b hall
  exact no_long_run R (separate4 ms) hlen b (fun j hj => mem_separate4.mpr (hall j hj))

theorem no_long_run_mech6 (R : Nat) (ms : List Mech) (hlen : (separate6 ms).length ≤ R) :
    ∀ b, ¬ (∀ j, j ≤ R → Mech.ip6 (b + j) ∈ ms) := by
  intro b hall
  exact no_long_run R (separate6 ms) hlen b (fun j hj => mem_separate6.mpr (hall j hj))

theorem rangeToExact_top_none1 : ∀ fuel, rangeToExactCIDRs fuel 1 (u32 - 1) = none := by
  intro fuel
  match fuel with
  | 0 => rfl
  | fuel + 1 =>
    rw [rangeToExactCIDRs, if_pos (by decide)]
    rw [show largestPowerOfTwoLessOrEqual ((u32 - 1 - 1 + 1) % u32) = none from by decide]
    rfl

theorem rangeToExact_top_none0 : ∀ fuel, rangeToExactCIDRs fuel 0 (u32 - 1) = none := by
  intro fuel
  match fuel with
  | 0 => rfl
  | fuel + 1 =>
    rw [rangeToExactCIDRs, if_pos (by decide)]
    rw [show largestPowerOfTwoLessOrEqual ((u32 - 1 - 0 + 1) % u32) = some 1 from by decide]
    simp only [Option.some_bind]
    rw [show alignLoop 33 0 1 = 1 from by decide]
    rw [show (0 + 1) % u32 = 1 from by decide]
    rw [rangeToExact_top_none1 fuel]
    rfl

theorem rangeToExact_top_none : ∀ fuel, rangeToExactCIDRs fuel (u32 - 4) (u32 - 1) = none := by
  intro fuel
  match fuel with
  | 0 => rfl
  | fuel + 1 =>
    rw [rangeToExactCIDRs, if_pos (by decide)]
    rw [show largestPowerOfTwoLessOrEqual ((u32 - 1 - (u32 - 4) + 1) % u32) = some 4 from by
      decide]
    simp only [Option.some_bind]
    rw [show alignLoop 33 (u32 - 4) 4 = 4 from by decide]
    rw [show (u32 - 4 + 4) % u32 = 0 from by decide]
    rw [rangeToExact_top_none0 fuel]
    rfl

/-- C10 counterexample: the input {2^32-4, ..., 2^32-1} satisfies the
claim's precondition (its only run has 4 addresses, far below 2^31),
yet aggregateIPv4 never terminates: once the packing walk reaches the
top address, `end - start + 1` wraps to a value of at least 2^31 and
the power search loops forever (modelled as `none` at every fuel). -/
theorem aggregateIPv4_diverges_at_top :
    (∀ b : Nat, ¬ (∀ j, j ≤ 4 → (b + j) ∈ [u32 - 4, u32 - 3, u32 - 2, u32 - 1])) ∧
    ∀ fuel, aggregateIPv4 fuel [u32 - 4, u32 - 3, u32 - 2, u32 - 1] = none := by
  constructor
  · exact no_long_run 4 _ (by decide)
  · intro fuel
    rw [aggregateIPv4, if_neg (by decide)]
    rw [show List.insertionSort (· ≤ ·) ([u32 - 4, u32 - 3, u32 - 2, u32 - 1].dedup) =
        [u32 - 4, u32 - 3, u32 - 2, u32 - 1] from by decide]
    rw [mergeContiguousRanges]
    rw [mergeAux, if_pos (by decide)]
    rw [mergeAux, if_pos (by decide)]
    rw [mergeAux, if_pos (by decide)]
    rw [mergeAux]
    exact rangeToExact_top_none fuel

/-- C10: aggregateIPv4 is total when every maximal run of consecutive
input addresses has at most `R < 2^31` addresses and the top address
2^32-1 does not occur (without the latter exclusion totality fails:
`aggregateIPv4_diverges_at_top`). -/
theorem aggregateIPv4_total (fuel R : Nat) (ips : List Nat)
    (hR : R ≤ 2 ^ 31 - 1) (hfuel : R < fuel)
    (hbound : ∀ a ∈ ips, a ≤ u32 - 2)
    (hrun : ∀ b, ¬ (∀ j, j ≤ R → (b + j) ∈ ips)) :
    ∃ cs, aggregateIPv4 fuel ips = some cs := by
  obtain ⟨cs, hcs, _⟩ := aggregateIPv4_cover R fuel hR hfuel ips hbound hrun
  exact ⟨cs, hcs⟩

theorem aggregateIPv4_total_witness :
    ∃ cs, aggregateIPv4 4 [1, 2, 3] = some cs :=
  aggregateIPv4_total 4 3 [1, 2, 3] (by decide) (by decide)
    (by decide)
    (no_long_run 3 [1, 2, 3] (by decide))

theorem separate4_ip4map : ∀ l : List Nat, separate4 (l.map Mech.ip4) = l := by
  intro l
  induction l with
  | nil => rfl
  | cons x xs ih =>
    rw [List.map_cons]
    show x :: separate4 (xs.map Mech.ip4) = x :: xs
    rw [ih]

theorem separate6_ip4map : ∀ l : List Nat, separate6 (l.map Mech.ip4) = [] := by
  intro l
  induction l with
  | nil => rfl
  | cons x xs ih =>
    rw [List.map_cons]
    show separate6 (xs.map Mech.ip4) = []
    exact ih

theorem existing4_ip4map : ∀ l : List Nat, existing4 (l.map Mech.ip4) = [] := by
  intro l
  induction l with
  | nil => rfl
  | cons x xs ih =>
    rw [List.map_cons]
    show existing4 (xs.map Mech.ip4) = []
    exact ih

theorem existing6_ip4map : ∀ l : List Nat, existing6 (l.map Mech.ip4) = [] := by
  intro l
  induction l with
  | nil => rfl
  | cons x xs ih =>
    rw [List.map_cons]
    show existing6 (xs.map Mech.ip4) = []
    exact ih

theorem nonIPMechs_ip4map : ∀ l : List Nat, nonIPMechs (l.map Mech.ip4) = [] := by
  intro l
  induction l with
  | nil => rfl
  | cons x xs ih =>
    rw [List.map_cons]
    show nonIPMechs (xs.map Mech.ip4) = []
    exact ih

theorem mergeAux_run : ∀ (k fuel s e : Nat), e + 1 + k < u32 →
    mergeAux fuel ((List.range k).map (fun i => e + 1 + i)) s e =
      rangeToExactCIDRs fuel s (e + k) := by
  intro k
  induction k with
  | zero =>
    intro fuel s e _
    rw [List.range_zero, List.map_nil, mergeAux, Nat.add_zero]
  | succ k ih =>
    intro fuel s e h
    have hshape : (List.range (k + 1)).map (fun i => e + 1 + i) =
        (e + 1) :: (List.range k).map (fun i => (e + 1) + 1 + i) := by
      rw [List.range_succ_eq_map, List.map_cons, List.map_map]
      rw [Nat.add_zero]
      congr 1
      apply List.map_congr_left
      intro a _
      show e + 1 + Nat.succ a = e + 1 + 1 + a
      omega
    rw [hshape, mergeAux,
      if_pos (Nat.mod_eq_of_lt (show e + 1 < u32 by omega)).symm]
    rw [ih fuel s (e + 1) (by omega)]
    rw [show e + 1 + k = e + (k + 1) from by omega]

set_option maxRecDepth 10000 in
theorem aggregateIPv4_drops_block_eval :
    aggregateIPv4 2 ((List.range 131072).map (fun i => 167772160 + i)) =
      some [Cidr.block 167772160 15] := by
  have hnodup : ((List.range 131072).map (fun i => 167772160 + i)).Nodup :=
    (List.nodup_range _).map (fun x y h => by omega)
  have hsorted : ((List.range 131072).map (fun i => 167772160 + i)).Sorted (· ≤ ·) :=
    List.pairwise_map.mpr ((List.pairwise_lt_range _).imp (by intro a b h; omega))
  rw [aggregateIPv4, if_neg (by simp)]
  rw [List.Nodup.dedup hnodup, List.Sorted.insertionSort_eq hsorted]
  have hshape : (List.range 131072).map (fun i => 167772160 + i) =
      167772160 :: (List.range 131071).map (fun i => 167772160 + 1 + i) := by
    rw [show (131072 : Nat) = 131071 + 1 from rfl, List.range_succ_eq_map, List.map_cons,
      List.map_map, Nat.add_zero]
    have ht : (List.range 131071).map ((fun i => (167772160 + i : Nat)) ∘ Nat.succ) =
        (List.range 131071).map (fun i => 167772160 + 1 + i) := by
      apply List.map_congr_left
      intro a _
      show 167772160 + Nat.succ a = 167772160 + 1 + a
      omega
    rw [ht]
  rw [hshape, mergeContiguousRanges]
  rw [mergeAux_run 131071 2 167772160 167772160 (by decide)]
  rw [show (167772160 + 131071 : Nat) = 167903231 from by norm_num]
  decide

set_option maxRecDepth 10000 in
theorem aggregateIPv4WithConfig_drops_block_eval :
    aggregateIPv4WithConfig 2 ((List.range 131072).map (fun i => 167772160 + i))
      defaultAggConfig = some [] := by
  rw [aggregateIPv4WithConfig, if_neg (by simp)]
  have hf : ((List.range 131072).map (fun i => 167772160 + i)).filter
      (fun a => decide (a ∉ defaultAggConfig.preserve4)) =
      (List.range 131072).map (fun i => 167772160 + i) := by
    apply List.filter_eq_self.mpr
    intro a _
    simp [defaultAggConfig]
  rw [hf, aggregateIPv4_drops_block_eval]
  simp only [Option.map_some']
  have hp : ((List.range 131072).map (fun i => 167772160 + i)).filter
      (fun a => decide (a ∈ defaultAggConfig.preserve4)) = [] := by
    apply List.filter_eq_nil_iff.mpr
    intro a _
    simp [defaultAggConfig]
  rw [hp]
  decide

/-- C1 counterexample: 131072 consecutive IPv4 hosts (10.0.0.0/15 as
individual addresses) under the default configuration aggregate to the
single block 10.0.0.0/15; its prefix 15 is below IPv4MaxPrefix 24, so
the code re-expands it through expandCIDRToIPs, which silently returns
nothing for networks larger than 65536 hosts.  The aggregator outputs
an empty mechanism list although the input denotes a nonempty address
set: the claimed input/output address-set equality fails. -/
theorem aggregateCIDRs_drops_block :
    aggregateCIDRsWithConfig 2
        ((List.range 131072).map (fun i => Mech.ip4 (167772160 + i))) defaultAggConfig =
      some [] ∧
    Mech.ip4 167772160 ∈ (List.range 131072).map (fun i => Mech.ip4 (167772160 + i)) ∧
    mechDenote (Mech.ip4 167772160) (true, 167772160) := by
  refine ⟨?_, ?_, rfl⟩
  · have hmm : (List.range 131072).map (fun i => Mech.ip4 (167772160 + i)) =
        ((List.range 131072).map (fun i => 167772160 + i)).map Mech.ip4 := by
      rw [List.map_map]
      rfl
    rw [hmm, aggregateCIDRsWithConfig, if_neg (by simp)]
    rw [separate4_ip4map, separate6_ip4map, existing4_ip4map, existing6_ip4map,
      nonIPMechs_ip4map]
    rw [aggregateIPv4WithConfig_drops_block_eval]
    simp only [Option.some_bind]
    rw [show aggregateIPv6WithConfig 2 [] defaultAggConfig = some [] from by
      rw [aggregateIPv6WithConfig]; simp]
    simp only [Option.map_some']
    rfl
  · exact List.mem_map.mpr ⟨0, List.mem_range.mpr (by norm_num), by rw [Nat.add_zero]⟩

theorem aggregateCIDRs_exact_cover_witness :
    ∃ out, aggregateCIDRsWithConfig 65537
        [Mech.ip4 10, Mech.ip4 11, Mech.ip6 5, Mech.other ['x']] defaultAggConfig =
          some out ∧
      ∀ t : Bool × Nat, (∃ o ∈ out, outDenote o t) ↔
        ∃ m ∈ [Mech.ip4 10, Mech.ip4 11, Mech.ip6 5, Mech.other ['x']], mechDenote m t :=
  aggregateCIDRs_exact_cover 65537
    [Mech.ip4 10, Mech.ip4 11, Mech.ip6 5, Mech.other ['x']] defaultAggConfig (le_refl _)
    (by
      intro a ha
      have hu : u32 = 4294967296 := rfl
      simp at ha
      rcases ha with rfl | rfl <;> omega)
    (by
      intro a ha
      simp at ha
      subst ha
      norm_num)
    (no_long_run_mech4 65536 _ (by decide))
    (no_long_run_mech6 1024 _ (by decide))
